import Mathlib

/-!
Verification development for the context-assembly pipeline of the claw
command-line tool.  The Rust sources in `src/context.rs` and
`src/validation.rs` are shallowly embedded: paths become lists of
components, the ambient filesystem becomes an explicit record of read
functions, and the stateful validation loop becomes a fold over an
explicit state.
-/

namespace Claw

/-- Error handling modes, from `config.rs` (`ErrorHandlingMode`). -/
inductive ErrorHandlingMode where
  | Strict
  | Flexible
  | Ignore
deriving DecidableEq, Repr

/-- A filesystem path, modelled as its list of components
(`PathBuf` in the sources). -/
abbrev FsPath := List String

/-- Display of a path: components joined by the platform separator,
modelling `Path::display` on Linux. -/
def pathDisplay (p : FsPath) : String := String.intercalate "/" p

/-- The parent directory of a path (`Path::parent`): `none` for an empty
path, otherwise the path with its last component removed. -/
def pathParent : FsPath → Option FsPath
  | [] => none
  | x :: xs => some ((x :: xs).dropLast)

/-- Configuration for context file discovery and processing
(`ContextConfig` in `context.rs`). -/
structure ContextConfig where
  paths : List FsPath
  recurse_depth : Option Nat
  max_file_size_kb : Nat
  max_files_per_directory : Nat
  error_handling_mode : ErrorHandlingMode
  excluded_directories : List String
  excluded_extensions : List String
deriving DecidableEq, Repr

/-- A discovered file with metadata (`DiscoveredFile` in `context.rs`). -/
structure DiscoveredFile where
  path : FsPath
  size : Nat
  relative_path : FsPath
deriving DecidableEq, Repr

/-- The content of a successfully read file (`FileContent` in `context.rs`). -/
structure FileContent where
  path : FsPath
  relative_path : FsPath
  content : String
deriving DecidableEq, Repr

/-- Errors that can occur during context processing
(`ContextError` in `context.rs`). -/
inductive ContextError where
  | FileNotFound (path : FsPath)
  | PermissionDenied (path : FsPath)
  | FileTooLarge (path : FsPath) (size : Nat) (limit : Nat)
  | TooManyFiles (directory : FsPath) (count : Nat) (limit : Nat)
  | BinaryFile (path : FsPath)
  | Utf8Error (path : FsPath)
  | IoError (path : FsPath) (error : String)
deriving DecidableEq, Repr

/-- Display of a `ContextError`, from the `std::fmt::Display`
implementation in `context.rs`. -/
def contextErrorMessage : ContextError → String
  | .FileNotFound p => "File not found: " ++ pathDisplay p
  | .PermissionDenied p => "Permission denied: " ++ pathDisplay p
  | .FileTooLarge p s l =>
      "File too large: " ++ pathDisplay p ++ " (" ++ toString s ++
        " KB exceeds limit of " ++ toString l ++ " KB)"
  | .TooManyFiles d c l =>
      "Too many files in directory: " ++ pathDisplay d ++ " (" ++ toString c ++
        " files exceeds limit of " ++ toString l ++ ")"
  | .BinaryFile p => "Binary file skipped: " ++ pathDisplay p
  | .Utf8Error p => "UTF-8 decoding error: " ++ pathDisplay p
  | .IoError p e => "I/O error reading " ++ pathDisplay p ++ ": " ++ e

/-- Result of context processing (`ContextResult` in `context.rs`). -/
structure ContextResult where
  files : List FileContent
  errors : List ContextError
  warnings : List String
deriving DecidableEq, Repr

/-- Kinds of I/O failure relevant to the pipeline, abstracting
`std::io::ErrorKind` plus the error message. -/
inductive IOErrorKind where
  | PermissionDenied
  | InvalidData
  | Other (msg : String)
deriving DecidableEq, Repr

/-- Message text of an I/O error, abstracting `Error::to_string`. -/
def ioErrMessage : IOErrorKind → String
  | .PermissionDenied => "permission denied"
  | .InvalidData => "invalid data"
  | .Other m => m

/-- The ambient filesystem, as seen by `validate_and_read_files`: reading
raw bytes (used by `is_binary_file`) and reading a file as a UTF-8 string
(`fs::read_to_string`) can each fail with an I/O error kind. -/
structure FileSystem where
  bytes : FsPath → Except IOErrorKind (List Nat)
  readToString : FsPath → Except IOErrorKind String

/-- Modelled from the spec: the content-type heuristic of the external
content inspection crate used by `is_binary_file`, whose code is not part
of this repository.  Per the spec (and the repository's own unit test), a
buffer is classified binary when it holds a null byte. -/
def inspectIsBinary (buffer : List Nat) : Bool := buffer.contains 0

/-- Checks if a file appears to be binary (`is_binary_file` in
`context.rs`): reads up to the first 8192 bytes and applies the
content-type heuristic. -/
def is_binary_file (fs : FileSystem) (path : FsPath) : Except IOErrorKind Bool :=
  match fs.bytes path with
  | .error e => .error e
  | .ok buf => .ok (inspectIsBinary (buf.take 8192))

/-- The evolving state of the validation loop in `validate_and_read_files`:
the partial `ContextResult` plus the per-parent-directory file counters
(the `dir_counts` hash map, modelled as a total function that is zero off
its support). -/
structure VState where
  files : List FileContent
  errors : List ContextError
  warnings : List String
  dirCounts : FsPath → Nat

/-- The binary check and read step of the loop body of
`validate_and_read_files` (lines 248-295 of `context.rs`). -/
def readStep (fs : FileSystem) (st : VState) (file : DiscoveredFile) : VState :=
  match is_binary_file fs file.path with
  | .ok true =>
      { st with warnings :=
          st.warnings ++ ["Skipped binary file: " ++ pathDisplay file.path] }
  | .ok false =>
      match fs.readToString file.path with
      | .ok content =>
          { st with files :=
              st.files ++ [⟨file.path, file.relative_path, content⟩] }
      | .error .PermissionDenied =>
          { st with errors := st.errors ++ [.PermissionDenied file.path] }
      | .error .InvalidData =>
          { st with errors := st.errors ++ [.Utf8Error file.path] }
      | .error (.Other m) =>
          { st with errors := st.errors ++ [.IoError file.path (ioErrMessage (.Other m))] }
  | .error e =>
      if e = .PermissionDenied then
        { st with errors := st.errors ++ [.PermissionDenied file.path] }
      else
        { st with errors := st.errors ++ [.IoError file.path (ioErrMessage e)] }

/-- One iteration of the loop body of `validate_and_read_files`
(lines 222-296 of `context.rs`): size check, then directory quota
(counter incremented before the comparison), then binary check and read. -/
def processFile (cfg : ContextConfig) (fs : FileSystem)
    (st : VState) (file : DiscoveredFile) : VState :=
  let size_kb := file.size / 1024
  if size_kb > cfg.max_file_size_kb then
    { st with errors :=
        st.errors ++ [.FileTooLarge file.path size_kb cfg.max_file_size_kb] }
  else
    match pathParent file.path with
    | some parent =>
        let count := st.dirCounts parent + 1
        let st1 : VState :=
          { st with dirCounts := fun q => if q = parent then count else st.dirCounts q }
        if count > cfg.max_files_per_directory then
          { st1 with errors :=
              st1.errors ++ [.TooManyFiles parent count cfg.max_files_per_directory] }
        else
          readStep fs st1 file
    | none => readStep fs st file

/-- The empty initial state of the validation loop. -/
def initState : VState := ⟨[], [], [], fun _ => 0⟩

/-- Runs the validation loop over a list of discovered files from a given
state. -/
def runFiles (cfg : ContextConfig) (fs : FileSystem)
    (st : VState) (files : List DiscoveredFile) : VState :=
  files.foldl (processFile cfg fs) st

/-- Projection of the loop state to the returned `ContextResult`. -/
def resultOf (st : VState) : ContextResult := ⟨st.files, st.errors, st.warnings⟩

/-- Validates and reads files (`validate_and_read_files` in `context.rs`). -/
def validate_and_read_files (fs : FileSystem) (files : List DiscoveredFile)
    (cfg : ContextConfig) : ContextResult :=
  resultOf (runFiles cfg fs initState files)

/-- Lowercasing of one character, modelling Rust's `char::to_lowercase`
on the ASCII range relevant to the y/yes comparison. -/
def toLowerChar (c : Char) : Char :=
  if 'A' ≤ c ∧ c ≤ 'Z' then Char.ofNat (c.toNat + 32) else c

/-- Modelling Rust's `str::to_lowercase`. -/
def rustToLower (s : String) : String := ⟨s.data.map toLowerChar⟩

/-- Whitespace as trimmed by Rust's `str::trim` (ASCII portion). -/
def isTrimWhitespace (c : Char) : Bool :=
  c = ' ' ∨ c = '\t' ∨ c = '\n' ∨ c = '\r'

/-- Modelling Rust's `str::trim`: strips leading and trailing whitespace. -/
def rustTrim (s : String) : String :=
  ⟨((s.data.dropWhile isTrimWhitespace).reverse.dropWhile isTrimWhitespace).reverse⟩

/-- The aggregated failure message produced by `handle_errors` in Strict
mode (the `anyhow::bail!` format string in `context.rs`). -/
def aggregateMessage (errors : List ContextError) : String :=
  "Context processing failed with " ++ toString errors.length ++
    " error(s):\n  " ++ String.intercalate "\n  " (errors.map contextErrorMessage)

/-- Handles errors based on the configured error handling mode
(`handle_errors` in `context.rs`).  The line read from standard input in
the Flexible branch is passed in as `input`; an `Except.error` models the
`anyhow::bail!` aborts, `Except.ok true` models `Ok(true)`. -/
def handle_errors (result : ContextResult) (mode : ErrorHandlingMode)
    (input : String) : Except String Bool :=
  if result.errors.isEmpty then .ok true
  else
    match mode with
    | .Strict => .error (aggregateMessage result.errors)
    | .Flexible =>
        let i := rustToLower (rustTrim input)
        if i = "y" ∨ i = "yes" then .ok true
        else .error "Context processing aborted by user."
    | .Ignore => .ok true

/-! Parameter validation, from `validation.rs` and the parameter types of
`config.rs`. -/

/-- The type of a goal parameter (`ParameterType` in `config.rs`). -/
inductive ParameterType where
  | String
  | Number
  | Boolean
deriving DecidableEq, Repr

/-- A single parameter definition for a goal (`GoalParameter` in
`config.rs`). -/
structure GoalParameter where
  name : String
  description : String
  required : Bool
  param_type : Option ParameterType
  default : Option String
deriving DecidableEq, Repr

/-- The error produced when validation fails (`ValidationError` in
`validation.rs`). -/
structure ValidationError where
  missing_params : List GoalParameter
  goal_name : String
deriving DecidableEq, Repr

/-- A user argument map (Rust `HashMap<String, String>`), modelled as an
association list; lookups find the first binding of a key. -/
abbrev ArgMap := List (String × String)

/-- Key membership in an argument map (`HashMap::contains_key`). -/
def containsKey (args : ArgMap) (k : String) : Bool :=
  args.any (fun kv => kv.1 = k)

/-- Value lookup in an argument map (`HashMap::get`). -/
def lookupArg (args : ArgMap) (k : String) : Option String :=
  match args with
  | [] => none
  | kv :: rest => if kv.1 = k then some kv.2 else lookupArg rest k

/-- Returns the required parameters missing from the arguments
(`ParameterValidator::get_missing_required` in `validation.rs`). -/
def get_missing_required (parameters : List GoalParameter) (args : ArgMap) :
    List GoalParameter :=
  parameters.filter (fun p => p.required && !(containsKey args p.name))

/-- One step of the default-filling loop of `ParameterValidator::validate`:
insert the default for a schema parameter not already present. -/
def insertDefault (res : ArgMap) (p : GoalParameter) : ArgMap :=
  if containsKey res p.name then res
  else
    match p.default with
    | some d => res ++ [(p.name, d)]
    | none => res

/-- Validates the provided arguments against the goal's parameter
definitions (`ParameterValidator::validate` in `validation.rs`). -/
def validate (parameters : List GoalParameter) (goal_name : String)
    (args : ArgMap) : Except ValidationError ArgMap :=
  if parameters.isEmpty then .ok args
  else
    let missing := get_missing_required parameters args
    if missing.isEmpty then .ok (parameters.foldl insertDefault args)
    else .error ⟨missing, goal_name⟩

/-! Directory tree generation, from `generate_tree`, `Node`,
`insert_path` and `build_termtree` in `context.rs`. -/

mutual
/-- A node of the nested directory structure (`Node` in `context.rs`):
a file leaf or a directory with named children. -/
inductive Node where
  | File : Node
  | Directory (children : NodeMap) : Node
/-- The children map of a directory (Rust `HashMap<String, Node>`),
modelled as an association list with the bindings in insertion order. -/
inductive NodeMap where
  | nil : NodeMap
  | cons (key : String) (node : Node) (rest : NodeMap) : NodeMap
end

/-- Looks up the node bound to a key (`HashMap::get`). -/
def NodeMap.lookup : NodeMap → String → Option Node
  | .nil, _ => none
  | .cons k n rest, q => if q = k then some n else rest.lookup q

/-- Whether a key is bound (`HashMap::contains_key`). -/
def NodeMap.hasKey : NodeMap → String → Bool
  | .nil, _ => false
  | .cons k _ rest, q => q = k || rest.hasKey q

/-- Binds a key to a node, replacing an existing binding
(`HashMap::insert`). -/
def NodeMap.insertReplace : NodeMap → String → Node → NodeMap
  | .nil, k, n => .cons k n .nil
  | .cons k' n' rest, k, n =>
      if k' = k then .cons k' n rest else .cons k' n' (rest.insertReplace k n)

/-- Inserts one relative path, component by component, into the nested
structure (`insert_path` in `context.rs`): a single component becomes a
file leaf (replacing any existing binding); a longer path enters the
directory bound to its head (`entry(..).or_insert_with` creates an empty
directory when the key is absent, and an existing file leaf is left
untouched, silently dropping the path). -/
def insert_path : NodeMap → List String → NodeMap
  | tree, [] => tree
  | tree, [name] => tree.insertReplace name .File
  | tree, name :: rest =>
      match tree.lookup name with
      | some (.Directory children) =>
          tree.insertReplace name (.Directory (insert_path children rest))
      | some .File => tree
      | none => tree.insertReplace name (.Directory (insert_path .nil rest))

/-- A rendered tree (the external termtree crate's `Tree<String>`): a root
label and the list of child trees. -/
inductive TTree where
  | node (root : String) (children : List TTree) : TTree
deriving Repr

/-- The root label of a tree (the `root` field of termtree's `Tree`). -/
def TTree.root : TTree → String
  | .node r _ => r

/-- Comparison of trees by root label, as used by the
`sort_by(|a, b| a.root.cmp(&b.root))` calls in `context.rs`. -/
def rootLe (a b : TTree) : Prop := a.root ≤ b.root

instance : DecidableRel rootLe := fun a b =>
  inferInstanceAs (Decidable (a.root ≤ b.root))

instance : IsTotal TTree rootLe := ⟨fun a b => le_total a.root b.root⟩

instance : IsTrans TTree rootLe := ⟨fun _ _ _ h1 h2 => le_trans h1 h2⟩

mutual
/-- Converts a named node into a termtree (`build_termtree` in
`context.rs`): a file leaf keeps its name, a directory gets a trailing
slash and its child trees sorted by root. -/
def build_termtree (name : String) : Node → TTree
  | .File => .node name []
  | .Directory children =>
      .node (name ++ "/") (List.insertionSort rootLe (buildChildren children))
/-- Converts every binding of a children map into a termtree, in binding
order (the iteration of `children.iter().map(..)` in `build_termtree`). -/
def buildChildren : NodeMap → List TTree
  | .nil => []
  | .cons k n rest => build_termtree k n :: buildChildren rest
end

/-- Builds the nested name-to-node structure from the accepted files'
relative paths (the first loop of `generate_tree` in `context.rs`). -/
def buildRoot (files : List FileContent) : NodeMap :=
  files.foldl (fun m f => insert_path m f.relative_path) .nil

/-- The sorted top-level trees of `generate_tree`: one tree per top-level
binding, sorted by root. -/
def topTrees (files : List FileContent) : List TTree :=
  List.insertionSort rootLe (buildChildren (buildRoot files))

mutual
/-- The rendered lines of a tree, modelling the `Display` implementation
of the external termtree crate: the root label on its own line, then each
child indented with branch glyphs, the last child differently. -/
def TTree.lines : TTree → List String
  | .node r children => r :: renderChildren children
/-- Renders a list of sibling trees: every tree but the last is prefixed
with a tee glyph and its continuation lines with a bar, the last with an
elbow glyph and spaces. -/
def renderChildren : List TTree → List String
  | [] => []
  | [t] =>
      match TTree.lines t with
      | [] => []
      | l :: ls => ("└── " ++ l) :: ls.map (fun s => "    " ++ s)
  | t :: t2 :: rest =>
      (match TTree.lines t with
       | [] => []
       | l :: ls => ("├── " ++ l) :: ls.map (fun s => "│   " ++ s)) ++
        renderChildren (t2 :: rest)
end

/-- The string rendering of one tree (`Tree::to_string`): every line
followed by a newline. -/
def treeToString (t : TTree) : String :=
  String.join (t.lines.map (fun l => l ++ "\n"))

/-- Generates the directory tree rendering from the accepted files
(`generate_tree` in `context.rs`). -/
def generate_tree (files : List FileContent) : String :=
  if files.isEmpty then "(no files)"
  else String.join ((topTrees files).map treeToString)

/-- A valid path component, as produced by `Path::components` on Linux:
nonempty and free of the separator character. -/
def validKeyB (k : String) : Bool :=
  !(k.data.isEmpty) && !(k.data.contains '/')

mutual
/-- Well-formedness of a node: every nested children map is
well-formed. -/
def Node.wfB : Node → Bool
  | .File => true
  | .Directory m => m.wfB
/-- Well-formedness of a children map, as maintained by the `HashMap`
embedding: keys are valid components, bound at most once, and the bound
nodes are well-formed. -/
def NodeMap.wfB : NodeMap → Bool
  | .nil => true
  | .cons k n rest => validKeyB k && !(rest.hasKey k) && n.wfB && rest.wfB
end

/-- Well-formedness of an optional node. -/
def optWfB : Option Node → Bool
  | none => true
  | some n => n.wfB

/-- Removes the first binding of a key. -/
def NodeMap.erase : NodeMap → String → NodeMap
  | .nil, _ => .nil
  | .cons k' n' rest, k => if k' = k then rest else .cons k' n' (rest.erase k)

/-- The node stored at the head key after `insert_path` walks the
remaining components into the node previously there (if any). -/
def nodeIns : Option Node → List String → Node
  | _, [] => .File
  | some (.Directory ch), t => .Directory (insert_path ch t)
  | some .File, _ => .File
  | none, t => .Directory (insert_path .nil t)

/-- The termtree built for the node bound at a key, if any. -/
def optBuild (k : String) : Option Node → Option TTree :=
  Option.map (build_termtree k)

/-- Extensional equivalence of children maps: at every key, the bound
nodes render to the same termtree. -/
def MEq (m1 m2 : NodeMap) : Prop :=
  ∀ k, optBuild k (m1.lookup k) = optBuild k (m2.lookup k)

/-- Whether a list of sibling root labels is weakly increasing. -/
def rootsSortedB : List String → Bool
  | [] => true
  | [_] => true
  | a :: b :: t => decide (a ≤ b) && rootsSortedB (b :: t)

mutual
/-- Whether a rendered tree has, at every level, its sibling roots in
sorted order. -/
def TTree.sortedB : TTree → Bool
  | .node _ children =>
      rootsSortedB (children.map TTree.root) && allSortedB children
/-- Whether every tree of a list is recursively sorted. -/
def allSortedB : List TTree → Bool
  | [] => true
  | t :: ts => t.sortedB && allSortedB ts
end

/-- Modelled from the spec: the static header template that
`format_context` loads at compile time from the repository file
`prompts/context_header.md`, which is absent from the sources; only its
fixity matters here. -/
def HEADER_TEMPLATE : String := "# Project Context"

/-- Renders the recursion depth for the Notes section: the literal
"unlimited" when absent. -/
def recurseDepthDisplay : Option Nat → String
  | none => "unlimited"
  | some d => toString d

/-- The per-file section of the Files listing in `format_context`:
heading, fenced content, with a newline forced before the closing fence
when the content does not already end in one. -/
def fileSection (f : FileContent) : String :=
  "### " ++ pathDisplay f.relative_path ++ "\n\n```\n" ++ f.content ++
    (if f.content.endsWith "\n" then "" else "\n") ++ "```\n\n"

/-- Formats the context result as markdown (`format_context` in
`context.rs`): header, Notes section from the config's display values,
directory tree, then the accepted files in order. -/
def format_context (result : ContextResult) (cfg : ContextConfig) : String :=
  HEADER_TEMPLATE ++
    "\n\n## Notes\n" ++
    "- Maximum file size: " ++ toString cfg.max_file_size_kb ++ " KB\n" ++
    "- Maximum files per directory: " ++ toString cfg.max_files_per_directory ++ "\n" ++
    "- Excluded directories: " ++ String.intercalate ", " cfg.excluded_directories ++ "\n" ++
    "- Excluded extensions: " ++ String.intercalate ", " cfg.excluded_extensions ++ "\n" ++
    "- Recursion depth: " ++ recurseDepthDisplay cfg.recurse_depth ++ "\n\n" ++
    "---\n\n" ++
    "## Directory Structure\n\n" ++
    "```\n" ++
    generate_tree result.files ++
    "```\n\n" ++
    "---\n\n" ++
    "## Files\n\n" ++
    String.join (result.files.map fileSection)

/-- The accepted `FileContent` that `validate_and_read_files` builds for a
discovered file whose read succeeds (the `Ok(content)` arm of the read
step); the content is the payload of the successful read. -/
def fileContentOf (fs : FileSystem) (f : DiscoveredFile) : FileContent :=
  ⟨f.path, f.relative_path,
    match fs.readToString f.path with
    | .ok c => c
    | .error _ => ""⟩

/-- Left-biased choice on options, used to state lookup properties of the
validated parameter map. -/
def orO {α : Type} (a b : Option α) : Option α :=
  match a with
  | some v => some v
  | none => b

/-- The directory counters after one file's quota accounting: bumped at
the file's parent directory when it has one (the `if let Some(parent)`
block of `validate_and_read_files`). -/
def bumpParent (d : FsPath → Nat) : Option FsPath → (FsPath → Nat)
  | none => d
  | some p => fun q => if q = p then d p + 1 else d q

/-! Concrete sample data used to exercise the definitions. -/

/-- A sample configuration with the given size and per-directory limits. -/
def exCfg (maxKb maxFiles : Nat) : ContextConfig :=
  ⟨[], none, maxKb, maxFiles, .Flexible, [], []⟩

/-- A sample filesystem: one binary file, one unreadable file, one file
with invalid encoding, everything else a small text file. -/
def exFS : FileSystem where
  bytes := fun p =>
    if p = ["d", "bin.dat"] then .ok [0, 1, 2]
    else if p = ["d", "deny.txt"] then .error .PermissionDenied
    else .ok [104, 105]
  readToString := fun p =>
    if p = ["d", "utf.txt"] then .error .InvalidData
    else .ok "hi"

/-- Sample discovered files, all in directory `d`. -/
def exA : DiscoveredFile := ⟨["d", "a.txt"], 10, ["a.txt"]⟩

def exB : DiscoveredFile := ⟨["d", "b.txt"], 10, ["b.txt"]⟩

def exC : DiscoveredFile := ⟨["d", "c.txt"], 10, ["c.txt"]⟩

def exBig : DiscoveredFile := ⟨["d", "big.txt"], 4096, ["big.txt"]⟩

def exBin : DiscoveredFile := ⟨["d", "bin.dat"], 10, ["bin.dat"]⟩

def exUtf : DiscoveredFile := ⟨["d", "utf.txt"], 10, ["utf.txt"]⟩

/-- A sample discovered file that is both oversized and binary. -/
def exBigBin : DiscoveredFile := ⟨["d", "bin.dat"], 4096, ["bin.dat"]⟩

/-- Sample accepted file contents for the tree rendering. -/
def exFc1 : FileContent := ⟨["cw", "a", "x.txt"], ["a", "x.txt"], "one"⟩

def exFc2 : FileContent := ⟨["cw", "b", "y.txt"], ["b", "y.txt"], "two"⟩

def exFc3 : FileContent := ⟨["cw", "a", "w.txt"], ["a", "w.txt"], "three"⟩

/-- A sample result carrying one validation error. -/
def exErrResult : ContextResult := ⟨[], [.PermissionDenied ["d", "deny.txt"]], []⟩

/-- Sample goal parameters: a required one and an optional one with a
default. -/
def exScope : GoalParameter := ⟨"scope", "what to cover", true, some .String, none⟩

def exFormat : GoalParameter := ⟨"format", "output format", false, some .String, some "markdown"⟩

/-! Basic lemmas about the validation loop. -/

theorem runFiles_nil (cfg : ContextConfig) (fs : FileSystem) (st : VState) :
    runFiles cfg fs st [] = st := rfl

theorem runFiles_cons (cfg : ContextConfig) (fs : FileSystem) (st : VState)
    (f : DiscoveredFile) (rest : List DiscoveredFile) :
    runFiles cfg fs st (f :: rest) = runFiles cfg fs (processFile cfg fs st f) rest := rfl

theorem runFiles_append (cfg : ContextConfig) (fs : FileSystem) (st : VState)
    (l1 l2 : List DiscoveredFile) :
    runFiles cfg fs st (l1 ++ l2) = runFiles cfg fs (runFiles cfg fs st l1) l2 :=
  List.foldl_append _ _ _ _

/-- Each loop iteration contributes exactly one element to exactly one of
the three output sequences. -/
theorem processFile_counts (cfg : ContextConfig) (fs : FileSystem)
    (st : VState) (f : DiscoveredFile) :
    (processFile cfg fs st f).files.length + (processFile cfg fs st f).errors.length
      + (processFile cfg fs st f).warnings.length
    = st.files.length + st.errors.length + st.warnings.length + 1 := by
  simp only [processFile, readStep]
  repeat' split
  all_goals simp
  all_goals omega

theorem runFiles_counts (cfg : ContextConfig) (fs : FileSystem) :
    ∀ (files : List DiscoveredFile) (st : VState),
    (runFiles cfg fs st files).files.length + (runFiles cfg fs st files).errors.length
      + (runFiles cfg fs st files).warnings.length
    = st.files.length + st.errors.length + st.warnings.length + files.length
  | [], st => by simp [runFiles_nil]
  | f :: rest, st => by
      have h1 := processFile_counts cfg fs st f
      have h2 := runFiles_counts cfg fs rest (processFile cfg fs st f)
      rw [runFiles_cons]
      simp only [List.length_cons]
      omega

/-- Each loop iteration only appends to the errors sequence. -/
theorem processFile_errors_extend (cfg : ContextConfig) (fs : FileSystem)
    (st : VState) (f : DiscoveredFile) :
    ∃ t, (processFile cfg fs st f).errors = st.errors ++ t := by
  simp only [processFile, readStep]
  repeat' split
  all_goals first
    | exact ⟨[], (List.append_nil _).symm⟩
    | exact ⟨_, rfl⟩

theorem runFiles_errors_extend (cfg : ContextConfig) (fs : FileSystem) :
    ∀ (files : List DiscoveredFile) (st : VState),
    ∃ t, (runFiles cfg fs st files).errors = st.errors ++ t
  | [], st => ⟨[], by simp [runFiles_nil]⟩
  | f :: rest, st => by
      obtain ⟨t1, h1⟩ := processFile_errors_extend cfg fs st f
      obtain ⟨t2, h2⟩ := runFiles_errors_extend cfg fs rest (processFile cfg fs st f)
      exact ⟨t1 ++ t2, by rw [runFiles_cons, h2, h1, List.append_assoc]⟩

/-- Each loop iteration only appends to the warnings sequence. -/
theorem processFile_warnings_extend (cfg : ContextConfig) (fs : FileSystem)
    (st : VState) (f : DiscoveredFile) :
    ∃ t, (processFile cfg fs st f).warnings = st.warnings ++ t := by
  simp only [processFile, readStep]
  repeat' split
  all_goals first
    | exact ⟨[], (List.append_nil _).symm⟩
    | exact ⟨_, rfl⟩

theorem runFiles_warnings_extend (cfg : ContextConfig) (fs : FileSystem) :
    ∀ (files : List DiscoveredFile) (st : VState),
    ∃ t, (runFiles cfg fs st files).warnings = st.warnings ++ t
  | [], st => ⟨[], by simp [runFiles_nil]⟩
  | f :: rest, st => by
      obtain ⟨t1, h1⟩ := processFile_warnings_extend cfg fs st f
      obtain ⟨t2, h2⟩ := runFiles_warnings_extend cfg fs rest (processFile cfg fs st f)
      exact ⟨t1 ++ t2, by rw [runFiles_cons, h2, h1, List.append_assoc]⟩

/-- C1: every input file of `validate_and_read_files` is accounted for in
exactly one of the three output sequences — their lengths sum to the
number of input files. -/
theorem validate_and_read_files_accounts_all_inputs (fs : FileSystem)
    (files : List DiscoveredFile) (cfg : ContextConfig) :
    (validate_and_read_files fs files cfg).files.length
      + (validate_and_read_files fs files cfg).errors.length
      + (validate_and_read_files fs files cfg).warnings.length
    = files.length := by
  have h := runFiles_counts cfg fs files initState
  simpa [validate_and_read_files, resultOf, initState] using h

/-- An oversized file contributes exactly one `FileTooLarge` error to the
state and changes nothing else, including the directory counters. -/
theorem processFile_too_large (cfg : ContextConfig) (fs : FileSystem)
    (st : VState) (f : DiscoveredFile)
    (h : f.size / 1024 > cfg.max_file_size_kb) :
    processFile cfg fs st f =
      { st with errors :=
          st.errors ++ [.FileTooLarge f.path (f.size / 1024) cfg.max_file_size_kb] } := by
  simp [processFile, h]

/-- C3: a discovered file whose size in KB (truncating division) strictly
exceeds the limit yields a `FileTooLarge` error in the output, appears in
the errors of the final result, and its processing step leaves the
accepted files, the warnings and every directory quota counter untouched. -/
theorem file_too_large_skipped (cfg : ContextConfig) (fs : FileSystem)
    (pre post : List DiscoveredFile) (f : DiscoveredFile)
    (h : f.size / 1024 > cfg.max_file_size_kb) :
    validate_and_read_files fs (pre ++ f :: post) cfg =
      resultOf (runFiles cfg fs
        { runFiles cfg fs initState pre with
          errors := (runFiles cfg fs initState pre).errors ++
            [.FileTooLarge f.path (f.size / 1024) cfg.max_file_size_kb] } post)
    ∧ ContextError.FileTooLarge f.path (f.size / 1024) cfg.max_file_size_kb ∈
        (validate_and_read_files fs (pre ++ f :: post) cfg).errors := by
  have hrw : runFiles cfg fs initState (pre ++ f :: post) =
      runFiles cfg fs
        { runFiles cfg fs initState pre with
          errors := (runFiles cfg fs initState pre).errors ++
            [.FileTooLarge f.path (f.size / 1024) cfg.max_file_size_kb] } post := by
    rw [runFiles_append, runFiles_cons, processFile_too_large cfg fs _ f h]
  constructor
  · rw [validate_and_read_files, hrw]
  · rw [validate_and_read_files, hrw]
    obtain ⟨t, ht⟩ := runFiles_errors_extend cfg fs post
      { runFiles cfg fs initState pre with
        errors := (runFiles cfg fs initState pre).errors ++
          [.FileTooLarge f.path (f.size / 1024) cfg.max_file_size_kb] }
    rw [resultOf, ht]
    simp

/-- A file that passes the size check but overflows its directory quota
contributes exactly one `TooManyFiles` error and bumps the counter. -/
theorem processFile_quota_exceeded (cfg : ContextConfig) (fs : FileSystem)
    (st : VState) (f : DiscoveredFile) (p : FsPath)
    (hsz : ¬ f.size / 1024 > cfg.max_file_size_kb)
    (hpar : pathParent f.path = some p)
    (hq : st.dirCounts p + 1 > cfg.max_files_per_directory) :
    processFile cfg fs st f =
      { st with
        errors := st.errors ++
          [.TooManyFiles p (st.dirCounts p + 1) cfg.max_files_per_directory],
        dirCounts := fun q => if q = p then st.dirCounts p + 1 else st.dirCounts q } := by
  simp [processFile, hsz, hpar, hq]

/-- A file that passes the size and quota checks, is not binary and reads
successfully is accepted and bumps the counter. -/
theorem processFile_accept (cfg : ContextConfig) (fs : FileSystem)
    (st : VState) (f : DiscoveredFile) (p : FsPath) (c : String)
    (hsz : ¬ f.size / 1024 > cfg.max_file_size_kb)
    (hpar : pathParent f.path = some p)
    (hq : ¬ st.dirCounts p + 1 > cfg.max_files_per_directory)
    (hbin : is_binary_file fs f.path = .ok false)
    (hread : fs.readToString f.path = .ok c) :
    processFile cfg fs st f =
      { st with
        files := st.files ++ [⟨f.path, f.relative_path, c⟩],
        dirCounts := fun q => if q = p then st.dirCounts p + 1 else st.dirCounts q } := by
  simp [processFile, readStep, hsz, hpar, hq, hbin, hread]

/-- A successful read makes `fileContentOf` the accepted content. -/
theorem fileContentOf_eq (fs : FileSystem) (f : DiscoveredFile) (c : String)
    (hread : fs.readToString f.path = .ok c) :
    fileContentOf fs f = ⟨f.path, f.relative_path, c⟩ := by
  simp [fileContentOf, hread]

/-- The generalized quota fence-post: running the loop from any state over
files that share parent `p`, all pass the size check, are non-binary and
readable, accepts exactly the first `limit - count` of them and emits
`TooManyFiles` errors with increasing counts for the rest, in order. -/
theorem runFiles_same_dir (cfg : ContextConfig) (fs : FileSystem) (p : FsPath) :
    ∀ (files : List DiscoveredFile) (st : VState),
    (∀ f ∈ files, pathParent f.path = some p) →
    (∀ f ∈ files, f.size / 1024 ≤ cfg.max_file_size_kb) →
    (∀ f ∈ files, is_binary_file fs f.path = .ok false) →
    (∀ f ∈ files, ∃ c, fs.readToString f.path = .ok c) →
    (runFiles cfg fs st files).files
        = st.files ++
          (files.take (cfg.max_files_per_directory - st.dirCounts p)).map (fileContentOf fs)
    ∧ (runFiles cfg fs st files).errors
        = st.errors ++
          (List.range (files.length - (cfg.max_files_per_directory - st.dirCounts p))).map
            (fun i => .TooManyFiles p (max (st.dirCounts p) cfg.max_files_per_directory + 1 + i)
              cfg.max_files_per_directory)
    ∧ (runFiles cfg fs st files).warnings = st.warnings
  | [], st, _, _, _, _ => by simp [runFiles_nil]
  | f :: rest, st, h1, h2, h3, h4 => by
    have hpar := h1 f (List.mem_cons_self f rest)
    have hsz : ¬ f.size / 1024 > cfg.max_file_size_kb :=
      not_lt.mpr (h2 f (List.mem_cons_self f rest))
    have hbin := h3 f (List.mem_cons_self f rest)
    obtain ⟨cv, hread⟩ := h4 f (List.mem_cons_self f rest)
    have h1t : ∀ g ∈ rest, pathParent g.path = some p :=
      fun g hg => h1 g (List.mem_cons_of_mem f hg)
    have h2t : ∀ g ∈ rest, g.size / 1024 ≤ cfg.max_file_size_kb :=
      fun g hg => h2 g (List.mem_cons_of_mem f hg)
    have h3t : ∀ g ∈ rest, is_binary_file fs g.path = .ok false :=
      fun g hg => h3 g (List.mem_cons_of_mem f hg)
    have h4t : ∀ g ∈ rest, ∃ c, fs.readToString g.path = .ok c :=
      fun g hg => h4 g (List.mem_cons_of_mem f hg)
    by_cases hq : st.dirCounts p + 1 > cfg.max_files_per_directory
    · rw [runFiles_cons, processFile_quota_exceeded cfg fs st f p hsz hpar hq]
      obtain ⟨ih1, ih2, ih3⟩ := runFiles_same_dir cfg fs p rest
        { st with
          errors := st.errors ++
            [.TooManyFiles p (st.dirCounts p + 1) cfg.max_files_per_directory],
          dirCounts := fun q => if q = p then st.dirCounts p + 1 else st.dirCounts q }
        h1t h2t h3t h4t
      simp only [eq_self_iff_true, if_true] at ih1 ih2 ih3
      have e0 : cfg.max_files_per_directory - st.dirCounts p = 0 := by omega
      have e1 : cfg.max_files_per_directory - (st.dirCounts p + 1) = 0 := by omega
      refine ⟨?_, ?_, ?_⟩
      · rw [ih1]
        simp [e0, e1]
      · rw [ih2]
        simp only [e0, e1, Nat.sub_zero, List.length_cons]
        rw [List.range_succ_eq_map, List.map_cons, List.map_map]
        have hg0 : (ContextError.TooManyFiles p
            (max (st.dirCounts p) cfg.max_files_per_directory + 1 + 0)
            cfg.max_files_per_directory)
            = ContextError.TooManyFiles p (st.dirCounts p + 1) cfg.max_files_per_directory :=
          congrArg (fun n => ContextError.TooManyFiles p n cfg.max_files_per_directory)
            (by omega)
        have hgs : ∀ i ∈ List.range rest.length,
            ((fun i => ContextError.TooManyFiles p
              (max (st.dirCounts p) cfg.max_files_per_directory + 1 + i)
              cfg.max_files_per_directory) ∘ Nat.succ) i
            = (fun i => ContextError.TooManyFiles p
              (max (st.dirCounts p + 1) cfg.max_files_per_directory + 1 + i)
              cfg.max_files_per_directory) i := by
          intro i _
          exact congrArg (fun n => ContextError.TooManyFiles p n cfg.max_files_per_directory)
            (by omega)
        rw [List.map_congr_left hgs] at *
        rw [hg0]
        simp
      · rw [ih3]
    · rw [runFiles_cons, processFile_accept cfg fs st f p cv hsz hpar hq hbin hread]
      obtain ⟨ih1, ih2, ih3⟩ := runFiles_same_dir cfg fs p rest
        { st with
          files := st.files ++ [⟨f.path, f.relative_path, cv⟩],
          dirCounts := fun q => if q = p then st.dirCounts p + 1 else st.dirCounts q }
        h1t h2t h3t h4t
      simp only [eq_self_iff_true, if_true] at ih1 ih2 ih3
      have e0 : cfg.max_files_per_directory - st.dirCounts p
          = (cfg.max_files_per_directory - (st.dirCounts p + 1)) + 1 := by omega
      have e2 : max (st.dirCounts p) cfg.max_files_per_directory
          = max (st.dirCounts p + 1) cfg.max_files_per_directory := by omega
      refine ⟨?_, ?_, ?_⟩
      · rw [ih1]
        simp only [e0, List.take_succ_cons, List.map_cons]
        rw [fileContentOf_eq fs f cv hread]
        simp
      · rw [ih2]
        simp only [List.length_cons, e0, e2]
        have e3 : rest.length + 1 - (cfg.max_files_per_directory - (st.dirCounts p + 1) + 1)
            = rest.length - (cfg.max_files_per_directory - (st.dirCounts p + 1)) := by omega
        rw [e3]
      · rw [ih3]

/-- C2: among same-directory files that pass the size check (and are
non-binary and readable), the file bringing the per-directory count to
exactly the limit is accepted, while the one past the limit and every
later one yields a `TooManyFiles` error, in discovery order with
increasing counts. -/
theorem quota_fence_post (cfg : ContextConfig) (fs : FileSystem) (p : FsPath)
    (files : List DiscoveredFile)
    (h1 : ∀ f ∈ files, pathParent f.path = some p)
    (h2 : ∀ f ∈ files, f.size / 1024 ≤ cfg.max_file_size_kb)
    (h3 : ∀ f ∈ files, is_binary_file fs f.path = .ok false)
    (h4 : ∀ f ∈ files, ∃ c, fs.readToString f.path = .ok c) :
    validate_and_read_files fs files cfg =
      ⟨(files.take cfg.max_files_per_directory).map (fileContentOf fs),
       (List.range (files.length - cfg.max_files_per_directory)).map
         (fun i => .TooManyFiles p (cfg.max_files_per_directory + 1 + i)
           cfg.max_files_per_directory),
       []⟩ := by
  obtain ⟨r1, r2, r3⟩ := runFiles_same_dir cfg fs p files initState h1 h2 h3 h4
  have hz : initState.dirCounts p = 0 := rfl
  rw [hz] at r1 r2
  simp only [Nat.sub_zero, Nat.zero_max] at r1 r2
  rw [validate_and_read_files, resultOf, r1, r2, r3]
  rfl

/-- A file that passes the size and quota checks and is classified binary
contributes exactly one warning and the counter bump. -/
theorem processFile_binary (cfg : ContextConfig) (fs : FileSystem)
    (st : VState) (f : DiscoveredFile)
    (hsz : ¬ f.size / 1024 > cfg.max_file_size_kb)
    (hq : ∀ p, pathParent f.path = some p →
      st.dirCounts p + 1 ≤ cfg.max_files_per_directory)
    (hbin : is_binary_file fs f.path = .ok true) :
    processFile cfg fs st f =
      { st with
        warnings := st.warnings ++ ["Skipped binary file: " ++ pathDisplay f.path],
        dirCounts := bumpParent st.dirCounts (pathParent f.path) } := by
  cases hp : pathParent f.path with
  | none => simp [processFile, readStep, hsz, hbin, hp, bumpParent]
  | some p =>
      have h' : ¬ st.dirCounts p + 1 > cfg.max_files_per_directory := by
        have := hq p hp
        omega
      simp [processFile, readStep, hsz, hbin, hp, h', bumpParent]

/-- C6 (amended): a file that passes the size and directory-quota checks
and whose readable content holds a null byte in its first 8 KB is
classified binary: it contributes exactly one warning (no error, no
accepted file, but it does consume its quota slot), and that warning is in
the final warnings. -/
theorem binary_file_warned_not_accepted (cfg : ContextConfig) (fs : FileSystem)
    (pre post : List DiscoveredFile) (f : DiscoveredFile) (bs : List Nat)
    (hsz : f.size / 1024 ≤ cfg.max_file_size_kb)
    (hbytes : fs.bytes f.path = .ok bs)
    (hnull : inspectIsBinary (bs.take 8192) = true)
    (hq : ∀ p, pathParent f.path = some p →
      (runFiles cfg fs initState pre).dirCounts p + 1 ≤ cfg.max_files_per_directory) :
    validate_and_read_files fs (pre ++ f :: post) cfg =
      resultOf (runFiles cfg fs
        { runFiles cfg fs initState pre with
          warnings := (runFiles cfg fs initState pre).warnings ++
            ["Skipped binary file: " ++ pathDisplay f.path],
          dirCounts := bumpParent (runFiles cfg fs initState pre).dirCounts
            (pathParent f.path) } post)
    ∧ ("Skipped binary file: " ++ pathDisplay f.path) ∈
        (validate_and_read_files fs (pre ++ f :: post) cfg).warnings := by
  have hbin : is_binary_file fs f.path = .ok true := by
    simp [is_binary_file, hbytes, hnull]
  have hrw : runFiles cfg fs initState (pre ++ f :: post) =
      runFiles cfg fs
        { runFiles cfg fs initState pre with
          warnings := (runFiles cfg fs initState pre).warnings ++
            ["Skipped binary file: " ++ pathDisplay f.path],
          dirCounts := bumpParent (runFiles cfg fs initState pre).dirCounts
            (pathParent f.path) } post := by
    rw [runFiles_append, runFiles_cons,
      processFile_binary cfg fs _ f (not_lt.mpr hsz) hq hbin]
  constructor
  · rw [validate_and_read_files, hrw]
  · rw [validate_and_read_files, hrw]
    obtain ⟨t, ht⟩ := runFiles_warnings_extend cfg fs post
      { runFiles cfg fs initState pre with
        warnings := (runFiles cfg fs initState pre).warnings ++
          ["Skipped binary file: " ++ pathDisplay f.path],
        dirCounts := bumpParent (runFiles cfg fs initState pre).dirCounts
          (pathParent f.path) }
    rw [resultOf, ht]
    simp

/-- C10: a file that passes the size and quota checks consumes its quota
slot even when it is then skipped as binary or its read fails: the counter
stays bumped, the file is not accepted, and a next same-directory file
that would have been within quota without it now overflows. -/
theorem quota_slot_consumed_by_skipped (cfg : ContextConfig) (fs : FileSystem)
    (pre : List DiscoveredFile) (f : DiscoveredFile) (p : FsPath)
    (hpar : pathParent f.path = some p)
    (hsz : f.size / 1024 ≤ cfg.max_file_size_kb)
    (hq : (runFiles cfg fs initState pre).dirCounts p + 1 ≤ cfg.max_files_per_directory)
    (hskip : is_binary_file fs f.path = .ok true
      ∨ (is_binary_file fs f.path = .ok false ∧ ∃ e, fs.readToString f.path = .error e)
      ∨ (∃ e, is_binary_file fs f.path = .error e)) :
    (processFile cfg fs (runFiles cfg fs initState pre) f).dirCounts p
        = (runFiles cfg fs initState pre).dirCounts p + 1
    ∧ (processFile cfg fs (runFiles cfg fs initState pre) f).files
        = (runFiles cfg fs initState pre).files
    ∧ ∀ g, pathParent g.path = some p → g.size / 1024 ≤ cfg.max_file_size_kb →
        (runFiles cfg fs initState pre).dirCounts p + 2 > cfg.max_files_per_directory →
        (processFile cfg fs (processFile cfg fs (runFiles cfg fs initState pre) f) g).errors
          = (processFile cfg fs (runFiles cfg fs initState pre) f).errors ++
              [.TooManyFiles p ((runFiles cfg fs initState pre).dirCounts p + 2)
                cfg.max_files_per_directory] := by
  set st := runFiles cfg fs initState pre with hst
  have hsz' : ¬ f.size / 1024 > cfg.max_file_size_kb := not_lt.mpr hsz
  have hq' : ¬ st.dirCounts p + 1 > cfg.max_files_per_directory := by omega
  have hcount : (processFile cfg fs st f).dirCounts p = st.dirCounts p + 1 := by
    rcases hskip with hb | ⟨hb, e, he⟩ | ⟨e, he⟩
    · simp [processFile, readStep, hsz', hpar, hq', hb]
    · cases e <;> simp [processFile, readStep, hsz', hpar, hq', hb, he]
    · by_cases hpd : e = IOErrorKind.PermissionDenied <;>
        simp [processFile, readStep, hsz', hpar, hq', he, hpd]
  have hfiles : (processFile cfg fs st f).files = st.files := by
    rcases hskip with hb | ⟨hb, e, he⟩ | ⟨e, he⟩
    · simp [processFile, readStep, hsz', hpar, hq', hb]
    · cases e <;> simp [processFile, readStep, hsz', hpar, hq', hb, he]
    · by_cases hpd : e = IOErrorKind.PermissionDenied <;>
        simp [processFile, readStep, hsz', hpar, hq', he, hpd]
  refine ⟨hcount, hfiles, ?_⟩
  intro g hgp hgs hover
  have hgs' : ¬ g.size / 1024 > cfg.max_file_size_kb := not_lt.mpr hgs
  have hover' : (processFile cfg fs st f).dirCounts p + 1 > cfg.max_files_per_directory := by
    rw [hcount]; omega
  rw [processFile_quota_exceeded cfg fs _ g p hgs' hgp hover']
  rw [hcount]

/-! Lemmas about `handle_errors`. -/

/-- C4: `handle_errors` proceeds without prompting when there are no
errors; in Strict mode with errors it aborts with the single aggregated
message; in Flexible mode with errors it proceeds exactly when the
trimmed, lowercased response is "y" or "yes", aborting on any other
response; in Ignore mode it always proceeds. -/
theorem handle_errors_decision (result : ContextResult)
    (mode : ErrorHandlingMode) (input : String) :
    (result.errors = [] → handle_errors result mode input = .ok true)
    ∧ (result.errors ≠ [] →
        handle_errors result .Strict input = .error (aggregateMessage result.errors))
    ∧ (result.errors ≠ [] →
        (handle_errors result .Flexible input = .ok true ↔
          (rustToLower (rustTrim input) = "y" ∨ rustToLower (rustTrim input) = "yes")))
    ∧ (result.errors ≠ [] →
        ¬ (rustToLower (rustTrim input) = "y" ∨ rustToLower (rustTrim input) = "yes") →
        handle_errors result .Flexible input = .error "Context processing aborted by user.")
    ∧ handle_errors result .Ignore input = .ok true := by
  refine ⟨?_, ?_, ?_, ?_, ?_⟩
  · intro h
    simp [handle_errors, h]
  · intro h
    simp [handle_errors, h]
  · intro h
    by_cases hc : rustToLower (rustTrim input) = "y" ∨ rustToLower (rustTrim input) = "yes" <;>
      simp [handle_errors, h, hc]
  · intro h hc
    simp [handle_errors, h, hc]
  · by_cases h : result.errors = [] <;> simp [handle_errors, h]

/-! Lemmas about `ParameterValidator::validate`. -/

/-- C8: over an empty schema, `validate` returns the input map unchanged,
with no validation and no defaults. -/
theorem validate_empty_schema_id (goal_name : String) (args : ArgMap) :
    validate [] goal_name args = .ok args := rfl

theorem containsKey_eq_isSome (args : ArgMap) (k : String) :
    containsKey args k = (lookupArg args k).isSome := by
  induction args with
  | nil => rfl
  | cons kv rest ih =>
      by_cases h : kv.1 = k <;> simp [containsKey, lookupArg, h] <;>
        simpa [containsKey] using ih

theorem containsKey_append (l1 l2 : ArgMap) (k : String) :
    containsKey (l1 ++ l2) k = (containsKey l1 k || containsKey l2 k) := by
  simp [containsKey, List.any_append]

theorem orO_none_right {α : Type} (a : Option α) : orO a none = a := by
  cases a <;> rfl

theorem lookupArg_append_single (acc : ArgMap) (n d k : String) :
    lookupArg (acc ++ [(n, d)]) k
      = orO (lookupArg acc k) (if k = n then some d else none) := by
  induction acc with
  | nil =>
      by_cases h : k = n
      · simp [lookupArg, orO, h]
      · have h2 : ¬ n = k := fun hh => h hh.symm
        simp [lookupArg, orO, h, h2]
  | cons kv rest ih =>
      by_cases h : kv.1 = k <;> simp [lookupArg, orO, h, ih]

/-- Lookup characterization of the default-filling fold of `validate`:
the user's binding wins, otherwise the first schema parameter with that
name that carries a default supplies it. -/
theorem foldl_insertDefault_lookup (parameters : List GoalParameter) :
    ∀ (acc : ArgMap) (k : String),
    lookupArg (parameters.foldl insertDefault acc) k
      = orO (lookupArg acc k)
          ((parameters.find? (fun p => p.name == k && p.default.isSome)).bind
            GoalParameter.default) := by
  induction parameters with
  | nil => intro acc k; exact (orO_none_right _).symm
  | cons p rest ih =>
      intro acc k
      rw [List.foldl_cons]
      by_cases hk : p.name = k
      · subst hk
        by_cases hck : containsKey acc p.name
        · have hacc : insertDefault acc p = acc := by simp [insertDefault, hck]
          rw [hacc, ih]
          have hsome : (lookupArg acc p.name).isSome := by
            rw [← containsKey_eq_isSome]
            exact hck
          obtain ⟨v, hv⟩ := Option.isSome_iff_exists.mp hsome
          cases hds : p.default with
          | some d =>
              rw [List.find?_cons_of_pos _ (by simp [hds])]
              simp [orO, hv, hds]
          | none =>
              rw [List.find?_cons_of_neg _ (by simp [hds])]
        · have hckf : containsKey acc p.name = false := by simpa using hck
          have hnone : lookupArg acc p.name = none := by
            rw [containsKey_eq_isSome] at hckf
            cases hv : lookupArg acc p.name with
            | none => rfl
            | some v => rw [hv] at hckf; simp at hckf
          cases hds : p.default with
          | some d =>
              have hacc : insertDefault acc p = acc ++ [(p.name, d)] := by
                simp [insertDefault, hck, hds]
              rw [hacc, ih]
              have hp : (p.name == p.name && p.default.isSome) = true := by simp [hds]
              have hl : lookupArg (acc ++ [(p.name, d)]) p.name = some d := by
                rw [lookupArg_append_single, hnone]
                simp [orO]
              rw [List.find?_cons_of_pos _ (by simp [hds])]
              simp [hl, hnone, orO, hds]
          | none =>
              have hacc : insertDefault acc p = acc := by simp [insertDefault, hck, hds]
              rw [hacc, ih]
              rw [List.find?_cons_of_neg _ (by simp [hds])]
      · have hlk : lookupArg (insertDefault acc p) k = lookupArg acc k := by
          by_cases hck : containsKey acc p.name
          · simp [insertDefault, hck]
          · cases hds : p.default with
            | none => simp [insertDefault, hck, hds]
            | some d =>
                have hacc : insertDefault acc p = acc ++ [(p.name, d)] := by
                  simp [insertDefault, hck, hds]
                rw [hacc, lookupArg_append_single]
                have h2 : ¬ k = p.name := fun hh => hk hh.symm
                rw [if_neg h2, orO_none_right]
        rw [ih, hlk]
        rw [List.find?_cons_of_neg _ (by simp [hk])]

/-- The default-filling fold only appends fresh keys after the user map. -/
theorem foldl_insertDefault_tail (parameters : List GoalParameter) :
    ∀ (acc : ArgMap), ∃ tail,
    parameters.foldl insertDefault acc = acc ++ tail
    ∧ (∀ kv ∈ tail, containsKey acc kv.1 = false)
    ∧ (tail.map Prod.fst).Nodup := by
  induction parameters with
  | nil => intro acc; exact ⟨[], by simp⟩
  | cons p rest ih =>
      intro acc
      rw [List.foldl_cons]
      by_cases hck : containsKey acc p.name
      · have hacc : insertDefault acc p = acc := by simp [insertDefault, hck]
        rw [hacc]
        exact ih acc
      · cases hd : p.default with
        | none =>
            have hacc : insertDefault acc p = acc := by simp [insertDefault, hck, hd]
            rw [hacc]
            exact ih acc
        | some d =>
            have hacc : insertDefault acc p = acc ++ [(p.name, d)] := by
              simp [insertDefault, hck, hd]
            rw [hacc]
            obtain ⟨t, ht, htc, htn⟩ := ih (acc ++ [(p.name, d)])
            refine ⟨(p.name, d) :: t, ?_, ?_, ?_⟩
            · rw [ht]
              simp
            · intro kv hkv
              rcases List.mem_cons.mp hkv with h | h
              · rw [h]
                simpa using hck
              · have := htc kv h
                rw [containsKey_append] at this
                simpa using (Bool.or_eq_false_iff.mp this).1
            · simp only [List.map_cons, List.nodup_cons]
              constructor
              · intro hmem
                obtain ⟨kv, hkv, hfst⟩ := List.mem_map.mp hmem
                have := htc kv hkv
                rw [containsKey_append] at this
                have h2 := (Bool.or_eq_false_iff.mp this).2
                rw [hfst] at h2
                simp [containsKey] at h2
              · exact htn

/-- C7: over a non-empty schema, `validate` fails exactly when some
required parameter is absent; the failure enumerates exactly the absent
required parameters; on success the result is the user map extended, at
fresh keys only, so that every absent defaulted parameter is filled with
its default, every required parameter and every defaulted parameter is
present, and every user binding is preserved. -/
theorem validate_nonempty_schema_spec (parameters : List GoalParameter)
    (goal_name : String) (args : ArgMap) (hne : parameters ≠ []) :
    ((∃ e, validate parameters goal_name args = .error e)
      ↔ ∃ p ∈ parameters, p.required = true ∧ containsKey args p.name = false)
    ∧ (∀ e, validate parameters goal_name args = .error e →
        e.missing_params
            = parameters.filter (fun p => p.required && !(containsKey args p.name))
          ∧ e.goal_name = goal_name)
    ∧ (∀ res, validate parameters goal_name args = .ok res →
        (∃ tail, res = args ++ tail
          ∧ (∀ kv ∈ tail, containsKey args kv.1 = false)
          ∧ (tail.map Prod.fst).Nodup)
        ∧ (∀ k, lookupArg res k
            = orO (lookupArg args k)
                ((parameters.find? (fun p => p.name == k && p.default.isSome)).bind
                  GoalParameter.default))
        ∧ (∀ p ∈ parameters, p.required = true → containsKey res p.name = true)
        ∧ (∀ p ∈ parameters, p.default.isSome = true → containsKey res p.name = true)
        ∧ (∀ kv ∈ args, kv ∈ res)) := by
  have hne' : parameters.isEmpty = false := by
    cases parameters with
    | nil => exact absurd rfl hne
    | cons a l => rfl
  by_cases hm : get_missing_required parameters args = []
  · have hok : validate parameters goal_name args
        = .ok (parameters.foldl insertDefault args) := by
      simp [validate, hne', hm]
    have habs : ∀ p ∈ parameters, p.required = true → containsKey args p.name = true := by
      intro p hp hreq
      have := List.filter_eq_nil_iff.mp hm p hp
      simp [hreq] at this
      exact this
    refine ⟨?_, ?_, ?_⟩
    · constructor
      · rintro ⟨e, he⟩
        rw [hok] at he
        exact absurd he (by simp)
      · rintro ⟨p, hp, hreq, habsent⟩
        have := habs p hp hreq
        rw [this] at habsent
        exact absurd habsent (by simp)
    · intro e he
      rw [hok] at he
      exact absurd he (by simp)
    · intro res hres
      rw [hok] at hres
      have hres' : res = parameters.foldl insertDefault args := by
        injection hres with h
        exact h.symm
      subst hres'
      obtain ⟨tail, ht, htc, htn⟩ := foldl_insertDefault_tail parameters args
      refine ⟨⟨tail, ht, htc, htn⟩, foldl_insertDefault_lookup parameters args, ?_, ?_, ?_⟩
      · intro p hp hreq
        rw [ht, containsKey_append, habs p hp hreq]
        rfl
      · intro p hp hds
        rw [containsKey_eq_isSome, foldl_insertDefault_lookup parameters args]
        cases hl : lookupArg args p.name with
        | some v => simp [orO]
        | none =>
            have hfind : (parameters.find? (fun q => q.name == p.name && q.default.isSome)).isSome := by
              rw [List.find?_isSome]
              exact ⟨p, hp, by simp [hds]⟩
            obtain ⟨q, hq⟩ := Option.isSome_iff_exists.mp hfind
            have hqp := List.find?_some hq
            have hqs : q.default.isSome := by
              simp at hqp
              exact hqp.2
            obtain ⟨dv, hdv⟩ := Option.isSome_iff_exists.mp hqs
            simp [orO, hq, hdv]
      · intro kv hkv
        rw [ht]
        exact List.mem_append_left _ hkv
  · have herr : validate parameters goal_name args
        = .error ⟨get_missing_required parameters args, goal_name⟩ := by
      simp [validate, hne', hm]
    refine ⟨?_, ?_, ?_⟩
    · constructor
      · intro _
        obtain ⟨p, l, hpl⟩ := List.exists_cons_of_ne_nil hm
        have hp : p ∈ get_missing_required parameters args := by
          rw [hpl]
          exact List.mem_cons_self p l
        rw [get_missing_required, List.mem_filter] at hp
        refine ⟨p, hp.1, ?_, ?_⟩
        · have := hp.2
          simp at this
          exact this.1
        · have := hp.2
          simp at this
          simpa using this.2
      · intro _
        exact ⟨⟨get_missing_required parameters args, goal_name⟩, herr⟩
    · intro e he
      rw [herr] at he
      injection he with h
      rw [← h]
      exact ⟨rfl, rfl⟩
    · intro res hres
      rw [herr] at hres
      exact absurd hres (by simp)

/-! Formatting lemmas. -/

/-- C9: `format_context` is a pure function of the accepted files and the
config's display values: results with equal files sequences format
identically, whatever their errors and warnings. -/
theorem format_context_depends_only_on_files (r1 r2 : ContextResult)
    (cfg : ContextConfig) (h : r1.files = r2.files) :
    format_context r1 cfg = format_context r2 cfg := by
  unfold format_context
  rw [h]

/-- C6 (counterexample): a discovered file whose content holds a null byte
in its first 8 KB but whose size exceeds the limit is never classified:
`validate_and_read_files` records a `FileTooLarge` error and no warning,
so the claim that every such file yields a warning is false. -/
theorem binary_oversized_counterexample :
    inspectIsBinary ((match exFS.bytes exBigBin.path with
      | .ok bs => bs
      | .error _ => []).take 8192) = true
    ∧ (validate_and_read_files exFS [exBigBin] (exCfg 1 50)).warnings = []
    ∧ (validate_and_read_files exFS [exBigBin] (exCfg 1 50)).errors
        = [.FileTooLarge ["d", "bin.dat"] 4 1] := by
  refine ⟨?_, ?_, ?_⟩ <;> decide

/-! Witnesses exercising the theorems at concrete inputs. -/

theorem quota_fence_post_witness :
    (∀ f ∈ [exA, exB, exC], pathParent f.path = some ["d"])
    ∧ (∀ f ∈ [exA, exB, exC], f.size / 1024 ≤ (exCfg 100 1).max_file_size_kb)
    ∧ (∀ f ∈ [exA, exB, exC], is_binary_file exFS f.path = .ok false)
    ∧ (∀ f ∈ [exA, exB, exC], ∃ c, exFS.readToString f.path = .ok c)
    ∧ validate_and_read_files exFS [exA, exB, exC] (exCfg 100 1) =
        ⟨([exA, exB, exC].take (exCfg 100 1).max_files_per_directory).map (fileContentOf exFS),
         (List.range ([exA, exB, exC].length - (exCfg 100 1).max_files_per_directory)).map
           (fun i => .TooManyFiles ["d"] ((exCfg 100 1).max_files_per_directory + 1 + i)
             (exCfg 100 1).max_files_per_directory),
         []⟩ := by
  have hread : ∀ f ∈ [exA, exB, exC], ∃ c, exFS.readToString f.path = .ok c := by
    intro f hf
    fin_cases hf <;> exact ⟨"hi", rfl⟩
  have hbin : ∀ f ∈ [exA, exB, exC], is_binary_file exFS f.path = .ok false := by
    intro f hf
    fin_cases hf <;> rfl
  refine ⟨by decide, by decide, hbin, hread, ?_⟩
  exact quota_fence_post (exCfg 100 1) exFS ["d"] [exA, exB, exC]
    (by decide) (by decide) hbin hread

theorem file_too_large_skipped_witness :
    (exBig.size / 1024 > (exCfg 1 50).max_file_size_kb)
    ∧ (validate_and_read_files exFS ([exA] ++ exBig :: [exB]) (exCfg 1 50) =
        resultOf (runFiles (exCfg 1 50) exFS
          { runFiles (exCfg 1 50) exFS initState [exA] with
            errors := (runFiles (exCfg 1 50) exFS initState [exA]).errors ++
              [.FileTooLarge exBig.path (exBig.size / 1024) (exCfg 1 50).max_file_size_kb] } [exB])
      ∧ ContextError.FileTooLarge exBig.path (exBig.size / 1024) (exCfg 1 50).max_file_size_kb ∈
          (validate_and_read_files exFS ([exA] ++ exBig :: [exB]) (exCfg 1 50)).errors) := by
  exact ⟨by decide, file_too_large_skipped (exCfg 1 50) exFS [exA] [exB] exBig (by decide)⟩

theorem handle_errors_decision_witness :
    (exErrResult.errors ≠ [])
    ∧ handle_errors exErrResult .Strict "" = .error (aggregateMessage exErrResult.errors)
    ∧ handle_errors exErrResult .Flexible " YES " = .ok true
    ∧ handle_errors exErrResult .Flexible "n" = .error "Context processing aborted by user."
    ∧ handle_errors exErrResult .Ignore "" = .ok true := by
  refine ⟨by decide, ?_, ?_, ?_, ?_⟩
  · exact (handle_errors_decision exErrResult .Strict "").2.1 (by decide)
  · exact ((handle_errors_decision exErrResult .Flexible " YES ").2.2.1 (by decide)).mpr
      (by decide)
  · exact (handle_errors_decision exErrResult .Flexible "n").2.2.2.1 (by decide) (by decide)
  · exact (handle_errors_decision exErrResult .Ignore "").2.2.2.2

theorem binary_file_warned_not_accepted_witness :
    (exBin.size / 1024 ≤ (exCfg 100 50).max_file_size_kb)
    ∧ exFS.bytes exBin.path = .ok [0, 1, 2]
    ∧ inspectIsBinary (([0, 1, 2] : List Nat).take 8192) = true
    ∧ (validate_and_read_files exFS ([] ++ exBin :: []) (exCfg 100 50) =
        resultOf (runFiles (exCfg 100 50) exFS
          { runFiles (exCfg 100 50) exFS initState [] with
            warnings := (runFiles (exCfg 100 50) exFS initState []).warnings ++
              ["Skipped binary file: " ++ pathDisplay exBin.path],
            dirCounts := bumpParent (runFiles (exCfg 100 50) exFS initState []).dirCounts
              (pathParent exBin.path) } [])
      ∧ ("Skipped binary file: " ++ pathDisplay exBin.path) ∈
          (validate_and_read_files exFS ([] ++ exBin :: []) (exCfg 100 50)).warnings) := by
  have hq : ∀ p, pathParent exBin.path = some p →
      (runFiles (exCfg 100 50) exFS initState []).dirCounts p + 1
        ≤ (exCfg 100 50).max_files_per_directory := by
    intro p hp
    rw [show pathParent exBin.path = some ["d"] from rfl] at hp
    injection hp with h
    rw [← h]
    decide
  exact ⟨by decide, rfl, by decide,
    binary_file_warned_not_accepted (exCfg 100 50) exFS [] [] exBin [0, 1, 2]
      (by decide) rfl (by decide) hq⟩

theorem quota_slot_consumed_by_skipped_witness :
    (pathParent exBin.path = some ["d"])
    ∧ (exBin.size / 1024 ≤ (exCfg 100 1).max_file_size_kb)
    ∧ ((runFiles (exCfg 100 1) exFS initState []).dirCounts ["d"] + 1
        ≤ (exCfg 100 1).max_files_per_directory)
    ∧ (is_binary_file exFS exBin.path = Except.ok true)
    ∧ ((processFile (exCfg 100 1) exFS (runFiles (exCfg 100 1) exFS initState []) exBin).dirCounts ["d"]
          = (runFiles (exCfg 100 1) exFS initState []).dirCounts ["d"] + 1
      ∧ (processFile (exCfg 100 1) exFS (runFiles (exCfg 100 1) exFS initState []) exBin).files
          = (runFiles (exCfg 100 1) exFS initState []).files
      ∧ ∀ g, pathParent g.path = some ["d"] → g.size / 1024 ≤ (exCfg 100 1).max_file_size_kb →
          (runFiles (exCfg 100 1) exFS initState []).dirCounts ["d"] + 2
            > (exCfg 100 1).max_files_per_directory →
          (processFile (exCfg 100 1) exFS
            (processFile (exCfg 100 1) exFS (runFiles (exCfg 100 1) exFS initState []) exBin) g).errors
            = (processFile (exCfg 100 1) exFS (runFiles (exCfg 100 1) exFS initState []) exBin).errors ++
                [.TooManyFiles ["d"] ((runFiles (exCfg 100 1) exFS initState []).dirCounts ["d"] + 2)
                  (exCfg 100 1).max_files_per_directory]) := by
  exact ⟨by decide, by decide, by decide, rfl,
    quota_slot_consumed_by_skipped (exCfg 100 1) exFS [] exBin ["d"]
      (by decide) (by decide) (by decide) (Or.inl rfl)⟩

theorem validate_nonempty_schema_spec_witness :
    ([exScope, exFormat] ≠ [])
    ∧ (((∃ e, validate [exScope, exFormat] "test-goal" [("scope", "auth")] = .error e)
        ↔ ∃ p ∈ [exScope, exFormat], p.required = true
            ∧ containsKey [("scope", "auth")] p.name = false)
      ∧ (∀ e, validate [exScope, exFormat] "test-goal" [("scope", "auth")] = .error e →
          e.missing_params
              = [exScope, exFormat].filter
                  (fun p => p.required && !(containsKey [("scope", "auth")] p.name))
            ∧ e.goal_name = "test-goal")
      ∧ (∀ res, validate [exScope, exFormat] "test-goal" [("scope", "auth")] = .ok res →
          (∃ tail, res = [("scope", "auth")] ++ tail
            ∧ (∀ kv ∈ tail, containsKey [("scope", "auth")] kv.1 = false)
            ∧ (tail.map Prod.fst).Nodup)
          ∧ (∀ k, lookupArg res k
              = orO (lookupArg [("scope", "auth")] k)
                  (([exScope, exFormat].find? (fun p => p.name == k && p.default.isSome)).bind
                    GoalParameter.default))
          ∧ (∀ p ∈ [exScope, exFormat], p.required = true → containsKey res p.name = true)
          ∧ (∀ p ∈ [exScope, exFormat], p.default.isSome = true → containsKey res p.name = true)
          ∧ (∀ kv ∈ [("scope", "auth")], kv ∈ res))) :=
  ⟨by decide,
    validate_nonempty_schema_spec [exScope, exFormat] "test-goal" [("scope", "auth")]
      (by decide)⟩

theorem format_context_depends_only_on_files_witness :
    ((⟨[exFc1], [], []⟩ : ContextResult).files
        = (⟨[exFc1], [.PermissionDenied ["d", "deny.txt"]], ["w"]⟩ : ContextResult).files)
    ∧ format_context ⟨[exFc1], [], []⟩ (exCfg 1 1)
        = format_context ⟨[exFc1], [.PermissionDenied ["d", "deny.txt"]], ["w"]⟩ (exCfg 1 1) :=
  ⟨rfl, format_context_depends_only_on_files _ _ (exCfg 1 1) rfl⟩

/-! Lemmas about the nested directory structure. -/

theorem lookup_insertReplace : ∀ (m : NodeMap) (k : String) (n : Node) (q : String),
    (m.insertReplace k n).lookup q = if q = k then some n else m.lookup q
  | .nil, k, n, q => by
      by_cases h : q = k <;> simp [NodeMap.insertReplace, NodeMap.lookup, h]
  | .cons k' n' rest, k, n, q => by
      by_cases hk : k' = k
      · subst hk
        by_cases hq : q = k' <;> simp [NodeMap.insertReplace, NodeMap.lookup, hq]
      · by_cases hq : q = k'
        · subst hq
          simp [NodeMap.insertReplace, NodeMap.lookup, hk]
        · simp [NodeMap.insertReplace, NodeMap.lookup, hk, hq,
            lookup_insertReplace rest k n q]

theorem hasKey_eq_isSome : ∀ (m : NodeMap) (q : String),
    m.hasKey q = (m.lookup q).isSome
  | .nil, _ => rfl
  | .cons k n rest, q => by
      by_cases h : q = k <;>
        simp [NodeMap.hasKey, NodeMap.lookup, h, hasKey_eq_isSome rest q]

/-- Lookup after `insert_path` of a nonempty component list: the head key
now holds the walked-in node, every other key is untouched. -/
theorem lookup_insert_path (m : NodeMap) (c : String) (t : List String) (q : String) :
    (insert_path m (c :: t)).lookup q
      = if q = c then some (nodeIns (m.lookup c) t) else m.lookup q := by
  cases t with
  | nil =>
      simp [insert_path, nodeIns, lookup_insertReplace]
  | cons x t' =>
      cases hl : m.lookup c with
      | none =>
          simp only [insert_path, hl, nodeIns, lookup_insertReplace]
      | some n =>
          cases n with
          | File =>
              by_cases hq : q = c <;> simp only [insert_path, hl, nodeIns, hq] <;>
                simp [hl]
          | Directory ch =>
              simp only [insert_path, hl, nodeIns, lookup_insertReplace]

theorem lookup_insert_path_ne (m : NodeMap) (c : String) (t : List String)
    (q : String) (h : ¬ q = c) :
    (insert_path m (c :: t)).lookup q = m.lookup q := by
  rw [lookup_insert_path, if_neg h]

theorem lookup_insert_path_self (m : NodeMap) (c : String) (t : List String) :
    (insert_path m (c :: t)).lookup c = some (nodeIns (m.lookup c) t) := by
  rw [lookup_insert_path, if_pos rfl]

theorem hasKey_insertReplace (m : NodeMap) (k : String) (n : Node) (q : String) :
    (m.insertReplace k n).hasKey q = (m.hasKey q || decide (q = k)) := by
  rw [hasKey_eq_isSome, lookup_insertReplace]
  by_cases h : q = k
  · simp [h]
  · simp [h, hasKey_eq_isSome]

/-! Well-formedness lemmas. -/

theorem wfB_cons_iff (k : String) (n : Node) (rest : NodeMap) :
    (NodeMap.cons k n rest).wfB = true ↔
      validKeyB k = true ∧ rest.hasKey k = false ∧ n.wfB = true ∧ rest.wfB = true := by
  simp [NodeMap.wfB, and_assoc]

theorem wf_lookup : ∀ (m : NodeMap) (q : String) (n : Node),
    m.wfB = true → m.lookup q = some n → n.wfB = true
  | .nil, q, n, _, hl => absurd hl (by simp [NodeMap.lookup])
  | .cons k n' rest, q, n, hm, hl => by
      rw [wfB_cons_iff] at hm
      by_cases h : q = k
      · rw [NodeMap.lookup, if_pos h] at hl
        injection hl with h2
        rw [← h2]
        exact hm.2.2.1
      · rw [NodeMap.lookup, if_neg h] at hl
        exact wf_lookup rest q n hm.2.2.2 hl

theorem wf_lookup_key : ∀ (m : NodeMap) (q : String) (n : Node),
    m.wfB = true → m.lookup q = some n → validKeyB q = true
  | .nil, q, n, _, hl => absurd hl (by simp [NodeMap.lookup])
  | .cons k n' rest, q, n, hm, hl => by
      rw [wfB_cons_iff] at hm
      by_cases h : q = k
      · rw [h]
        exact hm.1
      · rw [NodeMap.lookup, if_neg h] at hl
        exact wf_lookup_key rest q n hm.2.2.2 hl

theorem wf_insertReplace : ∀ (m : NodeMap) (k : String) (n : Node),
    m.wfB = true → validKeyB k = true → n.wfB = true →
    (m.insertReplace k n).wfB = true
  | .nil, k, n, _, hk, hn => by
      simp [NodeMap.insertReplace, NodeMap.wfB, NodeMap.hasKey, hk, hn]
  | .cons k' n' rest, k, n, hm, hk, hn => by
      rw [wfB_cons_iff] at hm
      by_cases h : k' = k
      · subst h
        rw [NodeMap.insertReplace, if_pos rfl, wfB_cons_iff]
        exact ⟨hm.1, hm.2.1, hn, hm.2.2.2⟩
      · rw [NodeMap.insertReplace, if_neg h, wfB_cons_iff]
        refine ⟨hm.1, ?_, hm.2.2.1, wf_insertReplace rest k n hm.2.2.2 hk hn⟩
        rw [hasKey_insertReplace, hm.2.1]
        simp [h]

theorem wf_insert_path : ∀ (comps : List String) (m : NodeMap),
    (∀ c ∈ comps, validKeyB c = true) → m.wfB = true →
    (insert_path m comps).wfB = true
  | [], m, _, hm => hm
  | [c], m, hv, hm => by
      rw [insert_path]
      exact wf_insertReplace m c .File hm (hv c (by simp)) rfl
  | c :: x :: t, m, hv, hm => by
      have hc : validKeyB c = true := hv c (by simp)
      have hrest : ∀ d ∈ x :: t, validKeyB d = true := by
        intro d hd
        exact hv d (List.mem_cons_of_mem c hd)
      cases hl : m.lookup c with
      | none =>
          simp only [insert_path, hl]
          exact wf_insertReplace m c _ hm hc
            (wf_insert_path (x :: t) .nil hrest rfl)
      | some n =>
          cases n with
          | File =>
              simp only [insert_path, hl]
              exact hm
          | Directory ch =>
              simp only [insert_path, hl]
              have hch : ch.wfB = true := wf_lookup m c _ hm hl
              exact wf_insertReplace m c _ hm hc
                (wf_insert_path (x :: t) ch hrest hch)

theorem wf_nodeIns : ∀ (t : List String) (cur : Option Node),
    (∀ c ∈ t, validKeyB c = true) → optWfB cur = true →
    (nodeIns cur t).wfB = true
  | [], cur, _, _ => by
      cases cur with
      | none => rfl
      | some n => cases n <;> rfl
  | x :: t', cur, hv, hc => by
      cases cur with
      | none =>
          simp only [nodeIns]
          exact wf_insert_path (x :: t') .nil hv rfl
      | some n =>
          cases n with
          | File => rfl
          | Directory ch =>
              simp only [nodeIns]
              exact wf_insert_path (x :: t') ch hv hc

theorem hasKey_erase_le : ∀ (m : NodeMap) (k q : String),
    (m.erase k).hasKey q = true → m.hasKey q = true
  | .nil, _, _, hq => hq
  | .cons a b r, k, q, hq => by
      by_cases ha : a = k
      · rw [NodeMap.erase, if_pos ha] at hq
        rw [NodeMap.hasKey, hq]
        simp
      · rw [NodeMap.erase, if_neg ha] at hq
        rw [NodeMap.hasKey] at hq ⊢
        rcases Bool.or_eq_true_iff.mp hq with h1 | h1
        · rw [h1]
          simp
        · rw [hasKey_erase_le r k q h1]
          simp

theorem wf_erase : ∀ (m : NodeMap) (k : String),
    m.wfB = true → (m.erase k).wfB = true
  | .nil, _, _ => rfl
  | .cons k' n' rest, k, hm => by
      rw [wfB_cons_iff] at hm
      by_cases h : k' = k
      · rw [NodeMap.erase, if_pos h]
        exact hm.2.2.2
      · rw [NodeMap.erase, if_neg h, wfB_cons_iff]
        refine ⟨hm.1, ?_, hm.2.2.1, wf_erase rest k hm.2.2.2⟩
        cases hres : (rest.erase k).hasKey k' with
        | false => rfl
        | true => rw [hasKey_erase_le rest k k' hres] at hm; exact absurd hm.2.1 (by simp)

theorem lookup_erase_ne : ∀ (m : NodeMap) (k q : String), ¬ q = k →
    (m.erase k).lookup q = m.lookup q
  | .nil, _, _, _ => rfl
  | .cons k' n' rest, k, q, h => by
      by_cases hk : k' = k
      · rw [NodeMap.erase, if_pos hk, NodeMap.lookup, if_neg (hk ▸ h)]
      · rw [NodeMap.erase, if_neg hk]
        by_cases hq : q = k'
        · rw [NodeMap.lookup, if_pos hq, NodeMap.lookup, if_pos hq]
        · rw [NodeMap.lookup, if_neg hq, NodeMap.lookup, if_neg hq,
            lookup_erase_ne rest k q h]

theorem lookup_erase_self : ∀ (m : NodeMap) (k : String),
    m.wfB = true → (m.erase k).lookup k = none
  | .nil, _, _ => rfl
  | .cons k' n' rest, k, hm => by
      rw [wfB_cons_iff] at hm
      by_cases hk : k' = k
      · rw [NodeMap.erase, if_pos hk]
        subst hk
        rw [hasKey_eq_isSome] at hm
        exact Option.not_isSome_iff_eq_none.mp (by simp [hm.2.1])
      · rw [NodeMap.erase, if_neg hk, NodeMap.lookup,
          if_neg (fun hh => hk hh.symm)]
        exact lookup_erase_self rest k hm.2.2.2

/-! Rendering lemmas. -/

theorem root_build_File (k : String) : (build_termtree k .File).root = k := by
  simp only [build_termtree, TTree.root]

theorem root_build_Directory (k : String) (ch : NodeMap) :
    (build_termtree k (.Directory ch)).root = k ++ "/" := by
  simp only [build_termtree, TTree.root]

theorem validKey_no_slash (k : String) (h : validKeyB k = true) :
    ¬ ('/' ∈ k.data) := by
  simp [validKeyB] at h
  exact h.2

/-- Root labels determine the key, for valid component names: a name and a
name with a trailing slash can never collide. -/
theorem root_inj (k1 k2 : String) (n1 n2 : Node)
    (h1 : validKeyB k1 = true) (h2 : validKeyB k2 = true)
    (h : (build_termtree k1 n1).root = (build_termtree k2 n2).root) : k1 = k2 := by
  cases n1 with
  | File =>
      cases n2 with
      | File => rw [root_build_File, root_build_File] at h; exact h
      | Directory ch =>
          rw [root_build_File, root_build_Directory] at h
          have hd := congrArg String.data h
          rw [String.data_append] at hd
          have hs := validKey_no_slash k1 h1
          rw [hd] at hs
          exact absurd (List.mem_append_right _ (by simp)) hs
  | Directory ch1 =>
      cases n2 with
      | File =>
          rw [root_build_Directory, root_build_File] at h
          have hd := congrArg String.data h
          rw [String.data_append] at hd
          have hs := validKey_no_slash k2 h2
          rw [← hd] at hs
          exact absurd (List.mem_append_right _ (by simp)) hs
      | Directory ch2 =>
          rw [root_build_Directory, root_build_Directory] at h
          have hd := congrArg String.data h
          rw [String.data_append, String.data_append] at hd
          exact String.ext (List.append_cancel_right hd)

theorem buildChildren_nil : buildChildren .nil = [] := by
  simp only [buildChildren]

theorem buildChildren_cons (k : String) (n : Node) (rest : NodeMap) :
    buildChildren (.cons k n rest) = build_termtree k n :: buildChildren rest := by
  simp only [buildChildren]

theorem mem_buildChildren_of_lookup : ∀ (m : NodeMap) (k : String) (n : Node),
    m.lookup k = some n → build_termtree k n ∈ buildChildren m
  | .nil, _, _, hl => absurd hl (by simp [NodeMap.lookup])
  | .cons k' n' rest, k, n, hl => by
      rw [buildChildren_cons]
      by_cases h : k = k'
      · rw [NodeMap.lookup, if_pos h] at hl
        injection hl with h2
        rw [h, h2]
        exact List.mem_cons_self _ _
      · rw [NodeMap.lookup, if_neg h] at hl
        exact List.mem_cons_of_mem _ (mem_buildChildren_of_lookup rest k n hl)

theorem exists_of_mem_buildChildren : ∀ (m : NodeMap), m.wfB = true →
    ∀ t ∈ buildChildren m, ∃ k n, t = build_termtree k n ∧ m.lookup k = some n
  | .nil, _, t, ht => absurd ht (by simp [buildChildren])
  | .cons k' n' rest, hm, t, ht => by
      rw [wfB_cons_iff] at hm
      rw [buildChildren_cons] at ht
      rcases List.mem_cons.mp ht with h | h
      · exact ⟨k', n', h, by rw [NodeMap.lookup, if_pos rfl]⟩
      · obtain ⟨k, n, hkn, hlk⟩ := exists_of_mem_buildChildren rest hm.2.2.2 t h
        have hne : ¬ k = k' := by
          intro hq
          subst hq
          rw [hasKey_eq_isSome, hlk] at hm
          exact absurd hm.2.1 (by simp)
        exact ⟨k, n, hkn, by rw [NodeMap.lookup, if_neg hne]; exact hlk⟩

theorem roots_nodup : ∀ (m : NodeMap), m.wfB = true →
    ((buildChildren m).map TTree.root).Nodup
  | .nil, _ => by simp [buildChildren]
  | .cons k n rest, hm => by
      rw [wfB_cons_iff] at hm
      rw [buildChildren_cons, List.map_cons, List.nodup_cons]
      refine ⟨?_, roots_nodup rest hm.2.2.2⟩
      intro hmem
      obtain ⟨t, ht, hroot⟩ := List.mem_map.mp hmem
      obtain ⟨k2, n2, ht2, hlk2⟩ := exists_of_mem_buildChildren rest hm.2.2.2 t ht
      have hk2 : validKeyB k2 = true := wf_lookup_key rest k2 n2 hm.2.2.2 hlk2
      have : k2 = k := by
        apply root_inj k2 k n2 n hk2 hm.1
        rw [← ht2, hroot]
      subst this
      rw [hasKey_eq_isSome, hlk2] at hm
      exact absurd hm.2.1 (by simp)

/-- Two sorted lists of trees that are permutations of each other and
have pairwise distinct roots are equal. -/
theorem sorted_perm_eq : ∀ (l1 l2 : List TTree), l1.Perm l2 →
    l1.Sorted rootLe → l2.Sorted rootLe → ((l1.map TTree.root).Nodup) → l1 = l2
  | [], l2, hp, _, _, _ => hp.nil_eq
  | a :: t1, [], hp, _, _, _ => absurd hp.symm.nil_eq (by simp)
  | a :: t1, b :: t2, hp, hs1, hs2, hnd => by
      have ha : a ∈ b :: t2 := hp.subset (List.mem_cons_self a t1)
      have hb : b ∈ a :: t1 := hp.symm.subset (List.mem_cons_self b t2)
      have hab : a = b := by
        rcases List.mem_cons.mp ha with h | h
        · exact h
        rcases List.mem_cons.mp hb with h2 | h2
        · exact h2.symm
        have r1 : rootLe a b := (List.sorted_cons.mp hs1).1 b h2
        have r2 : rootLe b a := (List.sorted_cons.mp hs2).1 a h
        have hroots : a.root = b.root := le_antisymm r1 r2
        exfalso
        have hnmem := (List.nodup_cons.mp hnd).1
        exact hnmem (by
          rw [hroots]
          exact List.mem_map.mpr ⟨b, h2, rfl⟩)
      subst hab
      have hpt : t1.Perm t2 := hp.cons_inv
      rw [sorted_perm_eq t1 t2 hpt (List.sorted_cons.mp hs1).2
        (List.sorted_cons.mp hs2).2 (List.nodup_cons.mp hnd).2]

theorem buildChildren_erase_perm : ∀ (m : NodeMap) (k : String) (n : Node),
    m.lookup k = some n →
    (buildChildren m).Perm (build_termtree k n :: buildChildren (m.erase k))
  | .nil, _, _, hl => absurd hl (by simp [NodeMap.lookup])
  | .cons k' n' rest, k, n, hl => by
      by_cases h : k = k'
      · rw [NodeMap.lookup, if_pos h] at hl
        injection hl with h2
        rw [buildChildren_cons, NodeMap.erase, if_pos h.symm, ← h, ← h2]
      · rw [NodeMap.lookup, if_neg h] at hl
        have ih := buildChildren_erase_perm rest k n hl
        rw [buildChildren_cons, NodeMap.erase,
          if_neg (fun hh => h hh.symm), buildChildren_cons]
        exact (ih.cons _).trans (List.Perm.swap _ _ _)

theorem buildChildren_nil_of_lookup_none : ∀ (m : NodeMap),
    (∀ k, m.lookup k = none) → buildChildren m = []
  | .nil, _ => rfl
  | .cons k n rest, h => by
      have := h k
      rw [NodeMap.lookup, if_pos rfl] at this
      exact absurd this (by simp)

theorem buildChildren_perm_of_MEq : ∀ (m1 m2 : NodeMap),
    m1.wfB = true → m2.wfB = true → MEq m1 m2 →
    (buildChildren m1).Perm (buildChildren m2)
  | .nil, m2, _, _, he => by
      have hnone : ∀ k, m2.lookup k = none := by
        intro k
        have := he k
        simp only [NodeMap.lookup, optBuild, Option.map_none] at this
        cases hl : m2.lookup k with
        | none => rfl
        | some n2 => rw [hl] at this; exact absurd this.symm (by simp)
      rw [buildChildren_nil_of_lookup_none m2 hnone, buildChildren_nil]
  | .cons k n rest, m2, hm1, hm2, he => by
      rw [wfB_cons_iff] at hm1
      have hl1 : (NodeMap.cons k n rest).lookup k = some n := by
        rw [NodeMap.lookup, if_pos rfl]
      have hek := he k
      rw [hl1] at hek
      obtain ⟨n2, hl2, hbt⟩ : ∃ n2, m2.lookup k = some n2
          ∧ build_termtree k n2 = build_termtree k n := by
        cases hl : m2.lookup k with
        | none => rw [hl] at hek; exact absurd hek (by simp [optBuild])
        | some n2 =>
            rw [hl] at hek
            refine ⟨n2, rfl, ?_⟩
            simp only [optBuild, Option.map_some] at hek
            injection hek with hx
            exact hx.symm
      have hperm2 := buildChildren_erase_perm m2 k n2 hl2
      have hrest : MEq rest (m2.erase k) := by
        intro q
        by_cases hq : q = k
        · subst hq
          have hr1 : rest.lookup q = none := by
            rw [hasKey_eq_isSome] at hm1
            cases hr : rest.lookup q with
            | none => rfl
            | some x => rw [hr] at hm1; exact absurd hm1.2.1 (by simp)
          rw [hr1, lookup_erase_self m2 q hm2]
        · have h1 : (NodeMap.cons k n rest).lookup q = rest.lookup q := by
            rw [NodeMap.lookup, if_neg hq]
          have h2 := he q
          rw [h1] at h2
          rw [lookup_erase_ne m2 k q hq]
          exact h2
      have ih := buildChildren_perm_of_MEq rest (m2.erase k)
        hm1.2.2.2 (wf_erase m2 k hm2) hrest
      rw [buildChildren_cons]
      rw [hbt] at hperm2
      exact (ih.cons _).trans hperm2.symm

/-- The sorted child-tree list depends only on the extensional content of
a well-formed children map. -/
theorem sortedBuild_eq_of_MEq (m1 m2 : NodeMap)
    (hm1 : m1.wfB = true) (hm2 : m2.wfB = true) (he : MEq m1 m2) :
    List.insertionSort rootLe (buildChildren m1)
      = List.insertionSort rootLe (buildChildren m2) := by
  have hperm : (List.insertionSort rootLe (buildChildren m1)).Perm
      (List.insertionSort rootLe (buildChildren m2)) :=
    (List.perm_insertionSort rootLe (buildChildren m1)).trans
      ((buildChildren_perm_of_MEq m1 m2 hm1 hm2 he).trans
        (List.perm_insertionSort rootLe (buildChildren m2)).symm)
  have hnd : ((List.insertionSort rootLe (buildChildren m1)).map TTree.root).Nodup :=
    ((List.perm_insertionSort rootLe (buildChildren m1)).symm.map TTree.root).nodup
      (roots_nodup m1 hm1)
  exact sorted_perm_eq _ _ hperm
    (List.sorted_insertionSort rootLe (buildChildren m1))
    (List.sorted_insertionSort rootLe (buildChildren m2)) hnd

theorem optWf_lookup (m : NodeMap) (q : String) (hm : m.wfB = true) :
    optWfB (m.lookup q) = true := by
  cases hl : m.lookup q with
  | none => rfl
  | some n => exact wf_lookup m q n hm hl

/-- Recovering extensional equivalence from equal sorted child-tree lists
of well-formed maps. -/
theorem MEq_of_sortedBuild_eq (ch1 ch2 : NodeMap)
    (h1 : ch1.wfB = true) (h2 : ch2.wfB = true)
    (h : List.insertionSort rootLe (buildChildren ch1)
      = List.insertionSort rootLe (buildChildren ch2)) : MEq ch1 ch2 := by
  have hperm : (buildChildren ch1).Perm (buildChildren ch2) := by
    have hp1 := List.perm_insertionSort rootLe (buildChildren ch1)
    rw [h] at hp1
    exact hp1.symm.trans (List.perm_insertionSort rootLe (buildChildren ch2))
  intro k
  cases hl : ch1.lookup k with
  | some n1 =>
      have hmem2 := hperm.subset (mem_buildChildren_of_lookup ch1 k n1 hl)
      obtain ⟨k2, n2, ht, hlk2⟩ := exists_of_mem_buildChildren ch2 h2 _ hmem2
      have hkk : k2 = k := by
        apply root_inj k2 k n2 n1 (wf_lookup_key ch2 k2 n2 h2 hlk2)
          (wf_lookup_key ch1 k n1 h1 hl)
        exact (congrArg TTree.root ht).symm
      subst hkk
      rw [hlk2]
      simp only [optBuild, Option.map_some]
      exact congrArg some ht
  | none =>
      cases hl2 : ch2.lookup k with
      | none => rfl
      | some n2 =>
          exfalso
          have hmem1 := hperm.symm.subset (mem_buildChildren_of_lookup ch2 k n2 hl2)
          obtain ⟨k1, n1, ht, hlk1⟩ := exists_of_mem_buildChildren ch1 h1 _ hmem1
          have hkk : k1 = k := by
            apply root_inj k1 k n1 n2 (wf_lookup_key ch1 k1 n1 h1 hlk1)
              (wf_lookup_key ch2 k n2 h2 hl2)
            exact (congrArg TTree.root ht).symm
          subst hkk
          rw [hl] at hlk1
          exact absurd hlk1 (by simp)

theorem nodeIns_nil (cur : Option Node) : nodeIns cur [] = .File := by
  cases cur with
  | none => rfl
  | some n => cases n <;> rfl

theorem nodeIns_dir (ch : NodeMap) (c : String) (t : List String) :
    nodeIns (some (.Directory ch)) (c :: t) = .Directory (insert_path ch (c :: t)) := by
  simp only [nodeIns]

theorem nodeIns_none (c : String) (t : List String) :
    nodeIns none (c :: t) = .Directory (insert_path .nil (c :: t)) := by
  simp only [nodeIns]

theorem nodeIns_file (t : List String) : nodeIns (some .File) t = .File := by
  cases t <;> rfl

/-- Congruence for walking a path into render-equivalent nodes: the
resulting nodes render equally again. -/
theorem nodeIns_cong : ∀ (t : List String) (k : String) (cur1 cur2 : Option Node),
    (∀ c ∈ t, validKeyB c = true) →
    optWfB cur1 = true → optWfB cur2 = true →
    optBuild k cur1 = optBuild k cur2 →
    build_termtree k (nodeIns cur1 t) = build_termtree k (nodeIns cur2 t)
  | [], k, cur1, cur2, _, _, _, _ => by
      rw [nodeIns_nil, nodeIns_nil]
  | c :: t', k, cur1, cur2, hv, hw1, hw2, h => by
      cases cur1 with
      | none =>
          cases cur2 with
          | none => rfl
          | some n2 => exact absurd h (by simp [optBuild])
      | some n1 =>
          cases cur2 with
          | none => exact absurd h (by simp [optBuild])
          | some n2 =>
              have hbt : build_termtree k n1 = build_termtree k n2 := by
                simp only [optBuild, Option.map_some] at h
                injection h
              cases n1 with
              | File =>
                  cases n2 with
                  | File => rfl
                  | Directory ch2 =>
                      exfalso
                      have hr := congrArg TTree.root hbt
                      rw [root_build_File, root_build_Directory] at hr
                      have hd := congrArg String.data hr
                      rw [String.data_append] at hd
                      simp at hd
              | Directory ch1 =>
                  cases n2 with
                  | File =>
                      exfalso
                      have hr := congrArg TTree.root hbt
                      rw [root_build_Directory, root_build_File] at hr
                      have hd := congrArg String.data hr
                      rw [String.data_append] at hd
                      simp at hd
                  | Directory ch2 =>
                      have hwf1 : ch1.wfB = true := by
                        simpa only [optWfB, Node.wfB] using hw1
                      have hwf2 : ch2.wfB = true := by
                        simpa only [optWfB, Node.wfB] using hw2
                      have hse : List.insertionSort rootLe (buildChildren ch1)
                          = List.insertionSort rootLe (buildChildren ch2) := by
                        simp only [build_termtree] at hbt
                        injection hbt with h1 h2
                      have he : MEq ch1 ch2 := MEq_of_sortedBuild_eq ch1 ch2 hwf1 hwf2 hse
                      rw [nodeIns_dir, nodeIns_dir]
                      have hvt : ∀ d ∈ t', validKeyB d = true := by
                        intro d hd
                        exact hv d (List.mem_cons_of_mem c hd)
                      have hins : MEq (insert_path ch1 (c :: t')) (insert_path ch2 (c :: t')) := by
                        intro q
                        by_cases hq : q = c
                        · subst hq
                          rw [lookup_insert_path_self, lookup_insert_path_self]
                          simp only [optBuild, Option.map_some]
                          exact congrArg some (nodeIns_cong t' q (ch1.lookup q) (ch2.lookup q)
                            hvt (optWf_lookup ch1 q hwf1) (optWf_lookup ch2 q hwf2) (he q))
                        · rw [lookup_insert_path_ne _ _ _ _ hq, lookup_insert_path_ne _ _ _ _ hq]
                          exact he q
                      have hgoal := sortedBuild_eq_of_MEq
                        (insert_path ch1 (c :: t')) (insert_path ch2 (c :: t'))
                        (wf_insert_path (c :: t') ch1 hv hwf1)
                        (wf_insert_path (c :: t') ch2 hv hwf2) hins
                      simp only [build_termtree]
                      rw [hgoal]

/-- Congruence of `insert_path` with respect to extensional
equivalence. -/
theorem insert_path_MEq (t : List String) (ch1 ch2 : NodeMap)
    (hv : ∀ c ∈ t, validKeyB c = true)
    (h1 : ch1.wfB = true) (h2 : ch2.wfB = true) (he : MEq ch1 ch2) :
    MEq (insert_path ch1 t) (insert_path ch2 t) := by
  cases t with
  | nil => exact he
  | cons c t' =>
      intro q
      by_cases hq : q = c
      · subst hq
        rw [lookup_insert_path_self, lookup_insert_path_self]
        simp only [optBuild, Option.map_some]
        refine congrArg some (nodeIns_cong t' q (ch1.lookup q) (ch2.lookup q)
          ?_ (optWf_lookup ch1 q h1) (optWf_lookup ch2 q h2) (he q))
        intro d hd
        exact hv d (List.mem_cons_of_mem q hd)
      · rw [lookup_insert_path_ne _ _ _ _ hq, lookup_insert_path_ne _ _ _ _ hq]
        exact he q

/-- Two successive path insertions commute up to extensional
equivalence of the resulting maps. -/
theorem insert_path_swap : ∀ (t1 t2 : List String) (m : NodeMap),
    (∀ c ∈ t1, validKeyB c = true) → (∀ c ∈ t2, validKeyB c = true) →
    m.wfB = true →
    MEq (insert_path (insert_path m t1) t2) (insert_path (insert_path m t2) t1)
  | [], t2, m, _, _, _ => fun k => rfl
  | c1 :: t1', [], m, _, _, _ => fun k => rfl
  | c1 :: t1', c2 :: t2', m, hv1, hv2, hm => by
      intro k
      have hv1' : ∀ d ∈ t1', validKeyB d = true :=
        fun d hd => hv1 d (List.mem_cons_of_mem c1 hd)
      have hv2' : ∀ d ∈ t2', validKeyB d = true :=
        fun d hd => hv2 d (List.mem_cons_of_mem c2 hd)
      by_cases h12 : c1 = c2
      · subst h12
        by_cases hk : k = c1
        · subst hk
          rw [lookup_insert_path_self, lookup_insert_path_self,
            lookup_insert_path_self, lookup_insert_path_self]
          simp only [optBuild, Option.map_some]
          refine congrArg some ?_
          cases ht1 : t1' with
          | nil =>
              cases ht2 : t2' with
              | nil => simp only [nodeIns_nil]
              | cons x2 s2 => simp only [nodeIns_nil, nodeIns_file]
          | cons x1 s1 =>
              cases ht2 : t2' with
              | nil => simp only [nodeIns_nil, nodeIns_file]
              | cons x2 s2 =>
                  rw [← ht1, ← ht2]
                  cases hcur : m.lookup k with
                  | none =>
                      rw [ht1, ht2, nodeIns_none, nodeIns_none, nodeIns_dir, nodeIns_dir]
                      simp only [build_termtree]
                      rw [sortedBuild_eq_of_MEq
                        (insert_path (insert_path .nil (x1 :: s1)) (x2 :: s2))
                        (insert_path (insert_path .nil (x2 :: s2)) (x1 :: s1))
                        (wf_insert_path _ _ (ht2 ▸ hv2') (wf_insert_path _ _ (ht1 ▸ hv1') rfl))
                        (wf_insert_path _ _ (ht1 ▸ hv1') (wf_insert_path _ _ (ht2 ▸ hv2') rfl))
                        (insert_path_swap (x1 :: s1) (x2 :: s2) .nil
                          (ht1 ▸ hv1') (ht2 ▸ hv2') rfl)]
                  | some n =>
                      cases n with
                      | File =>
                          rw [ht1, ht2, nodeIns_file, nodeIns_file, nodeIns_file]
                      | Directory ch =>
                          have hch : ch.wfB = true := wf_lookup m k _ hm hcur
                          rw [ht1, ht2, nodeIns_dir, nodeIns_dir, nodeIns_dir, nodeIns_dir]
                          simp only [build_termtree]
                          rw [sortedBuild_eq_of_MEq
                            (insert_path (insert_path ch (x1 :: s1)) (x2 :: s2))
                            (insert_path (insert_path ch (x2 :: s2)) (x1 :: s1))
                            (wf_insert_path _ _ (ht2 ▸ hv2') (wf_insert_path _ _ (ht1 ▸ hv1') hch))
                            (wf_insert_path _ _ (ht1 ▸ hv1') (wf_insert_path _ _ (ht2 ▸ hv2') hch))
                            (insert_path_swap (x1 :: s1) (x2 :: s2) ch
                              (ht1 ▸ hv1') (ht2 ▸ hv2') hch)]
        · rw [lookup_insert_path_ne _ _ _ _ hk, lookup_insert_path_ne _ _ _ _ hk,
            lookup_insert_path_ne _ _ _ _ hk, lookup_insert_path_ne _ _ _ _ hk]
      · by_cases hk1 : k = c1
        · subst hk1
          have hk2 : ¬ k = c2 := h12
          rw [lookup_insert_path_ne _ _ _ _ hk2, lookup_insert_path_self,
            lookup_insert_path_self, lookup_insert_path_ne _ _ _ _ hk2]
        · by_cases hk2 : k = c2
          · subst hk2
            have hk1' : ¬ k = c1 := hk1
            rw [lookup_insert_path_self, lookup_insert_path_ne _ _ _ _ hk1',
              lookup_insert_path_ne _ _ _ _ hk1', lookup_insert_path_self]
          · rw [lookup_insert_path_ne _ _ _ _ hk2, lookup_insert_path_ne _ _ _ _ hk1,
              lookup_insert_path_ne _ _ _ _ hk1, lookup_insert_path_ne _ _ _ _ hk2]

/-! Folding the accepted files into the root map. -/

theorem wf_fold_insert : ∀ (l : List FileContent) (m : NodeMap),
    (∀ f ∈ l, ∀ c ∈ f.relative_path, validKeyB c = true) → m.wfB = true →
    (l.foldl (fun mm f => insert_path mm f.relative_path) m).wfB = true
  | [], _, _, hm => hm
  | f :: rest, m, hv, hm => by
      rw [List.foldl_cons]
      exact wf_fold_insert rest _
        (fun g hg => hv g (List.mem_cons_of_mem f hg))
        (wf_insert_path f.relative_path m (hv f (List.mem_cons_self _ _)) hm)

theorem fold_insert_MEq : ∀ (l : List FileContent) (m1 m2 : NodeMap),
    (∀ f ∈ l, ∀ c ∈ f.relative_path, validKeyB c = true) →
    m1.wfB = true → m2.wfB = true → MEq m1 m2 →
    MEq (l.foldl (fun mm f => insert_path mm f.relative_path) m1)
        (l.foldl (fun mm f => insert_path mm f.relative_path) m2)
  | [], _, _, _, _, _, he => he
  | f :: rest, m1, m2, hv, hm1, hm2, he => by
      rw [List.foldl_cons, List.foldl_cons]
      exact fold_insert_MEq rest _ _
        (fun g hg => hv g (List.mem_cons_of_mem f hg))
        (wf_insert_path f.relative_path m1 (hv f (List.mem_cons_self _ _)) hm1)
        (wf_insert_path f.relative_path m2 (hv f (List.mem_cons_self _ _)) hm2)
        (insert_path_MEq f.relative_path m1 m2 (hv f (List.mem_cons_self _ _)) hm1 hm2 he)

theorem perm_fold_MEq (l1 l2 : List FileContent) (hp : l1.Perm l2) :
    (∀ f ∈ l1, ∀ c ∈ f.relative_path, validKeyB c = true) →
    ∀ m : NodeMap, m.wfB = true →
    MEq (l1.foldl (fun mm f => insert_path mm f.relative_path) m)
        (l2.foldl (fun mm f => insert_path mm f.relative_path) m) := by
  induction hp with
  | nil => intro _ m _ k; rfl
  | cons x h ih =>
      intro hv m hm
      simp only [List.foldl_cons]
      exact ih (fun f hf => hv f (List.mem_cons_of_mem x hf)) _
        (wf_insert_path x.relative_path m (hv x (List.mem_cons_self _ _)) hm)
  | swap x y l =>
      intro hv m hm
      simp only [List.foldl_cons]
      have hvx : ∀ c ∈ x.relative_path, validKeyB c = true :=
        hv x (by simp)
      have hvy : ∀ c ∈ y.relative_path, validKeyB c = true :=
        hv y (by simp)
      exact fold_insert_MEq l _ _
        (fun f hf => hv f (by simp [hf]))
        (wf_insert_path x.relative_path _ hvx (wf_insert_path y.relative_path m hvy hm))
        (wf_insert_path y.relative_path _ hvy (wf_insert_path x.relative_path m hvx hm))
        (insert_path_swap y.relative_path x.relative_path m hvy hvx hm)
  | trans h1 h2 ih1 ih2 =>
      intro hv m hm k
      exact (ih1 hv m hm k).trans
        (ih2 (fun f hf => hv f ((h1.mem_iff).mpr hf)) m hm k)

/-! Sortedness of the built trees. -/

theorem rootsSortedB_of_sorted : ∀ (l : List TTree), l.Sorted rootLe →
    rootsSortedB (l.map TTree.root) = true
  | [], _ => rfl
  | [_], _ => rfl
  | a :: b :: t, hs => by
      have h1 : rootLe a b := (List.sorted_cons.mp hs).1 b (by simp)
      have h2 := rootsSortedB_of_sorted (b :: t) (List.sorted_cons.mp hs).2
      rw [List.map_cons] at h2 ⊢
      rw [List.map_cons, rootsSortedB, h2]
      simp only [Bool.and_true, decide_eq_true_eq]
      exact h1

theorem allSortedB_of_forall : ∀ (l : List TTree),
    (∀ t ∈ l, t.sortedB = true) → allSortedB l = true
  | [], _ => rfl
  | t :: ts, h => by
      rw [allSortedB, h t (by simp),
        allSortedB_of_forall ts (fun u hu => h u (List.mem_cons_of_mem t hu))]
      rfl

mutual
theorem build_termtree_sorted : ∀ (n : Node) (k : String),
    (build_termtree k n).sortedB = true
  | .File, k => by
      simp [build_termtree, TTree.sortedB, rootsSortedB, allSortedB]
  | .Directory ch, k => by
      have h1 : rootsSortedB ((List.insertionSort rootLe (buildChildren ch)).map
          TTree.root) = true :=
        rootsSortedB_of_sorted _ (List.sorted_insertionSort rootLe (buildChildren ch))
      have h2 : allSortedB (List.insertionSort rootLe (buildChildren ch)) = true := by
        apply allSortedB_of_forall
        intro t ht
        rw [List.mem_insertionSort] at ht
        exact buildChildren_sorted ch t ht
      simp only [build_termtree, TTree.sortedB, h1, h2]
      rfl
theorem buildChildren_sorted : ∀ (m : NodeMap), ∀ t ∈ buildChildren m,
    t.sortedB = true
  | .nil, t, ht => absurd ht (by simp [buildChildren_nil])
  | .cons k n rest, t, ht => by
      rw [buildChildren_cons] at ht
      rcases List.mem_cons.mp ht with h | h
      · rw [h]
        exact build_termtree_sorted n k
      · exact buildChildren_sorted rest t h
end

/-- C5: the directory tree rendering of the accepted files is invariant
under every permutation of their order, and the built trees have, at every
level including the top, their sibling roots in sorted order. -/
theorem generate_tree_deterministic (files1 files2 : List FileContent)
    (hval : ∀ f ∈ files1, ∀ c ∈ f.relative_path, validKeyB c = true)
    (hperm : files1.Perm files2) :
    generate_tree files1 = generate_tree files2
    ∧ rootsSortedB ((topTrees files1).map TTree.root) = true
    ∧ (∀ t ∈ topTrees files1, t.sortedB = true) := by
  have hval2 : ∀ f ∈ files2, ∀ c ∈ f.relative_path, validKeyB c = true :=
    fun f hf => hval f ((hperm.mem_iff).mpr hf)
  have htop : topTrees files1 = topTrees files2 := by
    unfold topTrees buildRoot
    apply sortedBuild_eq_of_MEq
    · exact wf_fold_insert files1 .nil hval rfl
    · exact wf_fold_insert files2 .nil hval2 rfl
    · exact perm_fold_MEq files1 files2 hperm hval .nil rfl
  refine ⟨?_, ?_, ?_⟩
  · unfold generate_tree
    by_cases h : files1.isEmpty
    · have h2 : files2.isEmpty = true := by
        rw [List.isEmpty_iff] at h ⊢
        subst h
        exact hperm.nil_eq.symm
      rw [if_pos h, if_pos h2]
    · have h2 : ¬ files2.isEmpty = true := by
        rw [List.isEmpty_iff] at h ⊢
        intro hh
        subst hh
        exact h hperm.symm.nil_eq.symm
      rw [if_neg h, if_neg h2, htop]
  · unfold topTrees
    exact rootsSortedB_of_sorted _ (List.sorted_insertionSort rootLe _)
  · intro t ht
    unfold topTrees at ht
    rw [List.mem_insertionSort] at ht
    exact buildChildren_sorted _ t ht

theorem generate_tree_deterministic_witness :
    (∀ f ∈ [exFc1, exFc2, exFc3], ∀ c ∈ f.relative_path, validKeyB c = true)
    ∧ ([exFc1, exFc2, exFc3].Perm [exFc3, exFc1, exFc2])
    ∧ (generate_tree [exFc1, exFc2, exFc3] = generate_tree [exFc3, exFc1, exFc2]
      ∧ rootsSortedB ((topTrees [exFc1, exFc2, exFc3]).map TTree.root) = true
      ∧ (∀ t ∈ topTrees [exFc1, exFc2, exFc3], t.sortedB = true)) := by
  exact ⟨by decide, by decide,
    generate_tree_deterministic [exFc1, exFc2, exFc3] [exFc3, exFc1, exFc2]
      (by decide) (by decide)⟩

end Claw
